import Mathlib

/-!
Shallow embedding of `src/bootloader/src/bootloader.c` (BWSI vehicle-update
bootloader) and verification of the frozen claims about it.

Modelling conventions:
* Machine bytes are `Nat` values; `% 256` is applied exactly where the C code
  stores into a `char`/`uint8_t` object or reads a byte-wide register.
* The two input serial channels are explicit streams of `(value, readOk)`
  cells.  A blocking read from an exhausted stream never completes, which the
  model reports as `Res.spin`; a cell whose flag is `false` is a transport
  error (`check_read` fires, `send_err` runs, the chip resets), reported as
  `Res.err`.  `send_err` (bootloader.c:178-183) calls `SysCtlReset`, so any
  error is terminal: nothing after it executes.
* The external BearSSL primitives (HMAC-SHA256, AES-GCM) and the driverlib
  flash primitives are outside `src/`; they enter the model as parameters
  (`hmacF`, `gcmDecrypt`, `gcmOk`) and as a status oracle for `FlashProgram`.
* Flash is byte-addressed (`Nat → Nat`).  `FlashErase` sets a 1 KiB page to
  `0xFF`; a successful `FlashProgram` stores the given bytes (word assembly
  is modelled faithfully, standalone, by `program_flash` below and related to
  byte-level writes by the C8 theorems).
-/

namespace Boot

/-! ### Constants (bootloader.c:36-61) -/

def METADATA_BASE : Nat := 0xFC00
def RELEASE_BASE : Nat := 0xF800
def FW_BASE : Nat := 0x10000
def FR_METADATA_SIZE : Nat := 6
def FW_METADATA_SIZE : Nat := 6
def FW_MAX_SIZE : Nat := 0x7800
def RELEASE_MAX_SIZE : Nat := 0x400
def DATA_SIZE : Nat := FW_MAX_SIZE + FW_METADATA_SIZE + RELEASE_MAX_SIZE
def FLASH_PAGESIZE : Nat := 1024
def FLASH_WRITESIZE : Nat := 4
def HMAC_SIZE : Nat := 32
def TAG_SIZE : Nat := 16
def IV_SIZE : Nat := 16
def OK_BYTE : Nat := 0x00
def ERROR_BYTE : Nat := 0x01
def UART1 : Nat := 1
def UART2 : Nat := 2

/-! ### Pure helper functions -/

/-- Little-endian 16-bit assembly from two bytes, as in
`metadata[0] | metadata[1] << 8` (bootloader.c:325-329, 366-370). -/
def le16 (b0 b1 : Nat) : Nat := b0 ||| (b1 <<< 8)

/-- Ceiling division.  `frame_number = ceil((float)size / FLASH_PAGESIZE) - 1`
(bootloader.c:332) is modelled as `ceil_div size FLASH_PAGESIZE - 1` in `Nat`;
truncated `Nat` subtraction at `size = 0` gives `0`, matching the target's
soft-float conversion of `-1.0` to an unsigned integer (libgcc saturates
negative values to `0`). -/
def ceil_div (a b : Nat) : Nat := (a + b - 1) / b

/-- The constant-time compare loop of `sha_hmac` (bootloader.c:266-268):
`check |= hmac[i] ^ out[i]` over the positions of the two MACs.  Returns the
final accumulator together with the number of positions inspected. -/
def ct_or_fold : List Nat → List Nat → Nat → Nat × Nat
  | [], _, c => (c, 0)
  | _ :: _, [], c => (c, 0)
  | a :: as, b :: bs, c =>
      let r := ct_or_fold as bs (c ||| (a ^^^ b))
      (r.1, r.2 + 1)

/-- The value `sha_hmac` returns for a given received MAC and computed MAC
(bootloader.c:266-276): `0` when the accumulated difference is nonzero,
`32` otherwise. -/
def sha_hmac_result (mac out : List Nat) : Nat :=
  if (ct_or_fold mac out 0).1 ≠ 0 then 0 else 32

/-! ### The standalone `program_flash` model (bootloader.c:513-549) -/

/-- Little-endian 32-bit word from four bytes, as `FlashProgram` reads them
through the `(unsigned long *)` cast of the byte buffer. -/
def leWord (b0 b1 b2 b3 : Nat) : Nat :=
  b0 % 256 + 256 * (b1 % 256) + 65536 * (b2 % 256) + 16777216 * (b3 % 256)

/-- The words `FlashProgram` receives for a byte buffer whose length is a
multiple of 4. -/
def toWords : List Nat → List Nat
  | b0 :: b1 :: b2 :: b3 :: rest => leWord b0 b1 b2 b3 :: toWords rest
  | _ => []

/-- The final-word shift register of `program_flash` (bootloader.c:536-541):
first the `rem` data bytes are shifted in from the MSB end, then `0xFF` bytes
fill the remaining positions. -/
def tail_word (bytes : List Nat) : Nat :=
  let w := bytes.foldl (fun w b => (w >>> 8) ||| ((b % 256) <<< 24)) 0
  (List.range (4 - bytes.length)).foldl (fun w _ => (w >>> 8) ||| 0xFF000000) w

/-- One invocation of the external `FlashProgram`: target address, the words
passed, and the status the hardware returned (taken from an oracle list). -/
structure FlashCall where
  addr : Nat
  words : List Nat
  status : Nat
  deriving Repr, DecidableEq

/-- `program_flash` (bootloader.c:513-549), with the statuses of the
underlying `FlashProgram` calls supplied by the oracle list `statuses`
(`getD _ 0` : a missing entry means success).  Returns the function's return
value and the list of `FlashProgram` invocations it performed.  The byte
buffer is `src`; `data_len` is its length. -/
def program_flash (statuses : List Nat) (page_addr : Nat) (src : List Nat) :
    Nat × List FlashCall :=
  let data_len := src.length
  if data_len % FLASH_WRITESIZE ≠ 0 then
    let rem := data_len % FLASH_WRITESIZE
    let num_full_bytes := data_len - rem
    let s0 := statuses.getD 0 0
    let c0 : FlashCall := ⟨page_addr, toWords (src.take num_full_bytes), s0⟩
    if s0 ≠ 0 then (s0, [c0])
    else
      let s1 := statuses.getD 1 0
      (s1, [c0, ⟨page_addr + num_full_bytes, [tail_word (src.drop num_full_bytes)], s1⟩])
  else
    let s0 := statuses.getD 0 0
    (s0, [⟨page_addr, toWords src, s0⟩])

/-- The four little-endian bytes of a 32-bit word (how the flash contents are
read back byte-wise). -/
def wordBytes (w : Nat) : List Nat :=
  [w % 256, w / 256 % 256, w / 65536 % 256, w / 16777216 % 256]

/-- Byte image of a word list. -/
def wordsBytes (ws : List Nat) : List Nat := (ws.map wordBytes).flatten

/-! ### Machine state -/

/-- State of the bootloader run.  `u1`/`u2` are the unread input cells of
UART1 (host) and UART2 (debug); `out1` the bytes written to UART1; `flash`
the byte-addressed flash; `buf` the staging array `data[]` together with the
list `bufWrites` of indices written into it; `msg` the
`fw_release_message[]` contents; `statuses` the oracle of `FlashProgram`
return statuses. -/
structure St where
  u1 : List (Nat × Bool)
  u2 : List (Nat × Bool)
  out1 : List Nat
  flash : Nat → Nat
  buf : Nat → Nat
  bufWrites : List Nat
  msg : List Nat
  statuses : List Nat

/-- Result of running a piece of the bootloader: normal completion, the
terminal error path (`send_err` + chip reset), or a blocking read that never
completes. -/
inductive Res (α : Type) where
  | ok : α → St → Res α
  | err : St → Res α
  | spin : St → Res α

/-- State-passing computations over `St` with the terminal error path. -/
def M (α : Type) := St → Res α

def M.pure {α : Type} (a : α) : M α := fun s => .ok a s

def M.bind {α β : Type} (x : M α) (f : α → M β) : M β := fun s =>
  match x s with
  | .ok a s' => f a s'
  | .err s' => .err s'
  | .spin s' => .spin s'

/-- The error path: `send_err()` writes a diagnostic, emits `ERROR` on UART1
and resets the chip (bootloader.c:178-183); nothing executes afterwards. -/
def M.fail {α : Type} : M α := fun s => .err s

/-- Final state of a result, whichever way the run ended. -/
def stOf {α : Type} : Res α → St
  | .ok _ s => s
  | .err s => s
  | .spin s => s

def isErr {α : Type} : Res α → Bool
  | .err _ => true
  | _ => false

def isOk {α : Type} : Res α → Bool
  | .ok _ _ => true
  | _ => false

/-! ### Serial and buffer primitives -/

/-- One blocking `uart_read(UART1, BLOCKING, &read)`: pops the next UART1
cell, returning the byte value and the read flag. -/
def uart_read1 : M (Nat × Bool) := fun s =>
  match s.u1 with
  | [] => .spin s
  | (v, ok) :: rest => .ok (v % 256, ok) { s with u1 := rest }

/-- Inner loop of `uart_read_variable` (bootloader.c:200-206): read one byte
at a time from UART1, aborting through `check_read`/`send_err` when the read
flag is bad. -/
def uart_read_go (n : Nat) : M (List Nat) :=
  Nat.rec (M.pure [])
    (fun _ ih =>
      M.bind uart_read1 (fun vb =>
        if vb.2 then
          M.bind ih (fun rest => M.pure (vb.1 :: rest))
        else M.fail)) n

/-- `uart_read_variable` (bootloader.c:197-208).  NOTE (claim C1): the body
calls `uart_read(UART1, BLOCKING, &read)` at line 201 no matter which channel
the `uart` argument names, so the argument is ignored here exactly as in the
source: every byte comes from the UART1 stream.  The loop condition
`i < length && i < FLASH_PAGESIZE` caps the count at one page. -/
def uart_read_variable (uart : Nat) (length : Nat) : M (List Nat) :=
  uart_read_go (min length FLASH_PAGESIZE)

/-- `uart_write(UART1, b)`. -/
def uart_write1 (b : Nat) : M Unit := fun s => .ok () { s with out1 := s.out1 ++ [b] }

/-- Store one byte into `data[idx]`, recording the index written. -/
def bufWrite (idx v : Nat) : M Unit := fun s =>
  .ok () { s with
            buf := fun a => if a = idx then v % 256 else s.buf a,
            bufWrites := s.bufWrites ++ [idx] }

/-- Store a byte list into `data[]` starting at `start`. -/
def buf_write_list (start : Nat) (bytes : List Nat) : M Unit :=
  List.rec (motive := fun _ => Nat → M Unit)
    (fun _ => M.pure ())
    (fun b _ ih st => M.bind (bufWrite st b) (fun _ => ih (st + 1)))
    bytes start

/-- Zero out `count` bytes of `data[]` starting at `start`
(bootloader.c:457-458). -/
def buf_zero (start : Nat) (n : Nat) : M Unit :=
  Nat.rec (motive := fun _ => Nat → M Unit)
    (fun _ => M.pure ())
    (fun _ ih st => M.bind (bufWrite st 0) (fun _ => ih (st + 1)))
    n start

/-- Read `len` bytes of `data[]` starting at `start` (no state change). -/
def bufRead (buf : Nat → Nat) (start len : Nat) : List Nat :=
  (List.range len).map (fun j => buf (start + j))

def get_buf (start len : Nat) : M (List Nat) := fun s => .ok (bufRead s.buf start len) s

/-- Overwrite `fw_release_message[]` with the bytes just read
(bootloader.c:438). -/
def set_msg (bytes : List Nat) : M Unit := fun s => .ok () { s with msg := bytes }

/-! ### Crypto verifier (bootloader.c:215-277) -/

/-- `sha_hmac` (bootloader.c:249-277): read the expected 32-byte MAC via
`uart_read_variable(UART2, ...)` (which, per the source, consumes UART1
bytes), compute HMAC-SHA256 of `data` with the pre-shared key (abstracted as
`hmacF`), compare in constant time and take the error path on mismatch.
The `return 0` after `send_err()` is unreachable because `send_err` resets
the chip; mismatch is therefore modelled as the terminal error. -/
def sha_hmac (hmacF : List Nat → List Nat) (data : List Nat) : M Nat :=
  M.bind (uart_read_variable UART2 HMAC_SIZE) (fun hmac =>
    let out := hmacF data
    if (ct_or_fold hmac out 0).1 ≠ 0 then M.fail else M.pure 32)

/-- `gcm_decrypt_and_verify` (bootloader.c:215-240): read the 16-byte IV and
the 16-byte tag via `uart_read_variable(UART2, ...)` (again consuming UART1
bytes per the source), decrypt `data[0..ct_len)` in place, then check the
tag, taking the error path on mismatch.  Decryption and tag check are the
external BearSSL primitives, abstracted as `gcmDecrypt` and `gcmOk`. -/
def gcm_decrypt_and_verify (gcmDecrypt : List Nat → List Nat)
    (gcmOk : List Nat → List Nat → List Nat → Bool) (ct_len : Nat) : M Unit :=
  M.bind (uart_read_variable UART2 IV_SIZE) (fun iv =>
  M.bind (uart_read_variable UART2 TAG_SIZE) (fun tag =>
  M.bind (get_buf 0 ct_len) (fun ct =>
  M.bind (buf_write_list 0 ((gcmDecrypt ct).take ct_len)) (fun _ =>
    if ¬ gcmOk iv tag ct then M.fail else M.pure ()))))

/-! ### The update protocol state machine (`load_firmware`, bootloader.c:294-503) -/

/-- The stored version, read byte-wise relative to `METADATA_BASE`
(bootloader.c:336): `(*((uint8_t*)METADATA_BASE+1) << 8) | *(uint8_t*)METADATA_BASE`. -/
def old_version_of (flash : Nat → Nat) : Nat :=
  le16 (flash METADATA_BASE % 256) (flash (METADATA_BASE + 1) % 256)

def get_old_version : M Nat := fun s => .ok (old_version_of s.flash) s

/-- Metadata stage (bootloader.c:317-354): read and verify the 6 firmware
metadata bytes, parse `version`/`size`/`r_msg_size`, apply the rollback and
bounds checks, acknowledge.  Returns `(version, size, r_msg_size, metadata)`. -/
def metadata_stage (hmacF : List Nat → List Nat) : M (Nat × Nat × Nat × List Nat) :=
  M.bind (uart_read_variable UART1 FW_METADATA_SIZE) (fun md =>
  M.bind (sha_hmac hmacF md) (fun _ =>
    let version := le16 (md.getD 0 0) (md.getD 1 0)
    let size := le16 (md.getD 2 0) (md.getD 3 0)
    let r_msg_size := le16 (md.getD 4 0) (md.getD 5 0)
    M.bind get_old_version (fun old_version =>
    if version ≠ 0 ∧ version < old_version then M.fail
    else if size > FW_MAX_SIZE then M.fail
    else if r_msg_size > RELEASE_MAX_SIZE then M.fail
    else M.bind (uart_write1 OK_BYTE) (fun _ =>
      M.pure (version, size, r_msg_size, md)))))

/-- Frame payload read loop (bootloader.c:391-405): `n` bytes remaining,
current offset `i` in the page slot of frame `index`, running total
`bytes_recieved`.  Each byte is stored at `data[FLASH_PAGESIZE*index + i]`,
the total is incremented, the read flag is checked, and an overrun of
`size` takes the error path. -/
def read_frame_bytes (size index : Nat) (n : Nat) : Nat → Nat → M Nat :=
  Nat.rec (motive := fun _ => Nat → Nat → M Nat)
    (fun _ br => M.pure br)
    (fun _ ih i br =>
      M.bind uart_read1 (fun vb =>
      M.bind (bufWrite (FLASH_PAGESIZE * index + i) vb.1) (fun _ =>
        if ¬ vb.2 then M.fail
        else if br + 1 > size then M.fail
        else ih (i + 1) (br + 1)))) n

/-- One iteration of the frame loop (bootloader.c:357-422): read and verify
the 6 frame-metadata bytes, parse and check `index`, `frame_length`,
`frame_version`, read the payload, append the frame metadata behind it,
verify frame‖metadata, bump the counter and acknowledge.  Returns
`(index_check', bytes_recieved', done)` where `done` signals
`index == frame_number`. -/
def frame_step (hmacF : List Nat → List Nat) (version size frame_number : Nat)
    (index_check bytes_recieved : Nat) : M (Nat × Nat × Bool) :=
  M.bind (uart_read_variable UART2 FR_METADATA_SIZE) (fun fr =>
  M.bind (sha_hmac hmacF fr) (fun _ =>
    let index := le16 (fr.getD 0 0) (fr.getD 1 0)
    let frame_length := le16 (fr.getD 2 0) (fr.getD 3 0)
    let frame_version := le16 (fr.getD 4 0) (fr.getD 5 0)
    if index ≠ index_check ∨ index > frame_number then M.fail
    else if frame_length > FLASH_PAGESIZE then M.fail
    else if version ≠ frame_version ∨ frame_version = 1 then M.fail
    else
      M.bind (read_frame_bytes size index (min frame_length FLASH_PAGESIZE) 0 bytes_recieved)
        (fun br =>
      M.bind (buf_write_list (FLASH_PAGESIZE * index + frame_length) fr) (fun _ =>
      M.bind (get_buf (FLASH_PAGESIZE * index) (frame_length + FR_METADATA_SIZE)) (fun chunk =>
      M.bind (sha_hmac hmacF chunk) (fun _ =>
      M.bind (uart_write1 OK_BYTE) (fun _ =>
        M.pure (index_check + 1, br, index = frame_number))))))))

/-- The `while (1)` frame loop (bootloader.c:357-423), driven by fuel.
Returns the final `bytes_recieved`. -/
def frame_loop (hmacF : List Nat → List Nat) (version size frame_number : Nat)
    (fuel : Nat) : Nat → Nat → M Nat :=
  Nat.rec (motive := fun _ => Nat → Nat → M Nat)
    (fun _ _ => fun s => .spin s)
    (fun _ ih index_check bytes_recieved =>
      M.bind (frame_step hmacF version size frame_number index_check bytes_recieved)
        (fun r =>
          if r.2.2 then M.pure r.2.1
          else ih r.1 r.2.1)) fuel

/-- Post-loop verification pipeline (bootloader.c:431-466): whole-firmware
HMAC, release-message read and HMAC, combined HMAC over
firmware‖metadata‖message, zeroing of the trailing staging bytes, and the
final GCM decrypt-and-verify. -/
def post_loop_stage (hmacF : List Nat → List Nat) (gcmDecrypt : List Nat → List Nat)
    (gcmOk : List Nat → List Nat → List Nat → Bool)
    (size r_msg_size : Nat) (md : List Nat) : M Unit :=
  M.bind (get_buf 0 size) (fun fw =>
  M.bind (sha_hmac hmacF fw) (fun _ =>
  M.bind (uart_write1 OK_BYTE) (fun _ =>
  M.bind (uart_read_variable UART2 r_msg_size) (fun msgBytes =>
  M.bind (set_msg msgBytes) (fun _ =>
  M.bind (sha_hmac hmacF msgBytes) (fun _ =>
  M.bind (uart_write1 OK_BYTE) (fun _ =>
  M.bind (buf_write_list size md) (fun _ =>
  M.bind (buf_write_list (size + FW_METADATA_SIZE) (msgBytes.take RELEASE_MAX_SIZE)) (fun _ =>
  M.bind (get_buf 0 (size + FW_METADATA_SIZE + r_msg_size)) (fun all =>
  M.bind (sha_hmac hmacF all) (fun _ =>
  M.bind (buf_zero size (min (FW_METADATA_SIZE + r_msg_size)
      (FW_METADATA_SIZE + RELEASE_MAX_SIZE))) (fun _ =>
  M.bind (uart_write1 OK_BYTE) (fun _ =>
  M.bind (gcm_decrypt_and_verify gcmDecrypt gcmOk size) (fun _ =>
  uart_write1 OK_BYTE))))))))))))))

/-! ### Flash commit (bootloader.c:469-502) -/

/-- `FlashErase(page_addr)`: the 1 KiB page becomes `0xFF`. -/
def flash_erase (page_addr : Nat) : M Unit := fun s =>
  .ok () { s with flash := fun a =>
            if page_addr ≤ a ∧ a < page_addr + FLASH_PAGESIZE then 0xFF else s.flash a }

/-- One external `FlashProgram` call at byte level: pop the next status from
the oracle; on success the bytes land in flash, on failure the page is left
as the erase put it. -/
def flashProgramCall (addr : Nat) (bytes : List Nat) : M Nat := fun s =>
  let st := s.statuses.getD 0 0
  let s1 := { s with statuses := s.statuses.drop 1 }
  if st = 0 then
    .ok 0 { s1 with flash := fun a =>
              if addr ≤ a ∧ a < addr + bytes.length
              then bytes.getD (a - addr) 0 % 256 else s1.flash a }
  else .ok st s1

/-- `program_flash` as it acts inside `load_firmware` (bootloader.c:513-549),
at byte level: erase the page, program the 4-aligned prefix, then program the
padded final word when the length is not a multiple of 4.  The `0xFF` padding
of the final word is written out explicitly; the word assembly itself is the
standalone `program_flash` above (related by the C8 theorems). -/
def program_flash_m (page_addr : Nat) (bytes : List Nat) : M Nat :=
  M.bind (flash_erase page_addr) (fun _ =>
    let len := bytes.length
    if len % FLASH_WRITESIZE ≠ 0 then
      let rem := len % FLASH_WRITESIZE
      let full := len - rem
      M.bind (flashProgramCall page_addr (bytes.take full)) (fun ret =>
        if ret ≠ 0 then M.pure ret
        else flashProgramCall (page_addr + full)
          (bytes.drop full ++ List.replicate (FLASH_WRITESIZE - rem) 0xFF))
    else flashProgramCall page_addr bytes)

/-- Firmware flash loop (bootloader.c:469-484): page-sized chunks of
`data[]` are programmed at increasing page addresses; a nonzero program
status takes the error path.  Fuel-driven; the caller passes ample fuel. -/
def flash_fw_loop (size : Nat) (n : Nat) : Nat → M Unit :=
  Nat.rec (motive := fun _ => Nat → M Unit)
    (fun _ => M.pure ())
    (fun _ ih off =>
      if off < size then
        M.bind (get_buf off (min FLASH_PAGESIZE (size - off))) (fun bytes =>
        M.bind (program_flash_m (FW_BASE + off) bytes) (fun ret =>
          if ret ≠ 0 then M.fail
          else ih (off + FLASH_PAGESIZE)))
      else M.pure ()) n

/-- Commit stage (bootloader.c:469-502): flash the firmware chunks; when
`version == 0` copy the currently stored version bytes into the metadata
about to be written (bootloader.c:487-490); program the metadata page and
the release-message page. -/
def commit_stage (version size r_msg_size : Nat) (md : List Nat) : M Unit :=
  M.bind (flash_fw_loop size size 0) (fun _ => fun s =>
    let md' := if version = 0
      then s.flash METADATA_BASE % 256 :: s.flash (METADATA_BASE + 1) % 256 :: md.drop 2
      else md
    (M.bind (program_flash_m METADATA_BASE md') (fun r1 =>
      if r1 ≠ 0 then M.fail
      else fun s2 =>
        (M.bind (program_flash_m RELEASE_BASE (s2.msg.take r_msg_size)) (fun r2 =>
          if r2 ≠ 0 then M.fail else M.pure ())) s2)) s)

/-- Everything `load_firmware` does before its first flash operation
(bootloader.c:294-466): metadata stage, frame loop, size cross-check,
whole-firmware HMAC, release message, combined HMAC, zeroing, GCM
decrypt-and-verify.  Returns `(version, size, r_msg_size, metadata)`. -/
def pre_commit (hmacF : List Nat → List Nat) (gcmDecrypt : List Nat → List Nat)
    (gcmOk : List Nat → List Nat → List Nat → Bool) (fuel : Nat) :
    M (Nat × Nat × Nat × List Nat) :=
  M.bind (metadata_stage hmacF) (fun meta =>
    let version := meta.1
    let size := meta.2.1
    let r_msg_size := meta.2.2.1
    let md := meta.2.2.2
    let frame_number := ceil_div size FLASH_PAGESIZE - 1
    M.bind (frame_loop hmacF version size frame_number fuel 0 0) (fun br =>
      if size ≠ br then M.fail
      else M.bind (post_loop_stage hmacF gcmDecrypt gcmOk size r_msg_size md) (fun _ =>
        M.pure meta)))

/-- `load_firmware` (bootloader.c:294-503): the verification pipeline
followed by the flash commit. -/
def load_firmware (hmacF : List Nat → List Nat) (gcmDecrypt : List Nat → List Nat)
    (gcmOk : List Nat → List Nat → List Nat → Bool) (fuel : Nat) : M Unit :=
  M.bind (pre_commit hmacF gcmDecrypt gcmOk fuel) (fun meta =>
    commit_stage meta.1 meta.2.1 meta.2.2.1 meta.2.2.2)

/-! ### Trace parsing (for stating claims about a given input) -/

/-- The byte values carried by the first `n` cells of a stream. -/
def traceBytes (u : List (Nat × Bool)) (n : Nat) : List Nat :=
  (u.take n).map (fun c => c.1 % 256)

/-- `version` as parsed from the first six bytes of the host stream. -/
def parsedVersion (u : List (Nat × Bool)) : Nat :=
  le16 ((traceBytes u 6).getD 0 0) ((traceBytes u 6).getD 1 0)

/-- `fw_size` as parsed from the first six bytes of the host stream. -/
def parsedSize (u : List (Nat × Bool)) : Nat :=
  le16 ((traceBytes u 6).getD 2 0) ((traceBytes u 6).getD 3 0)

/-- `release_msg_size` as parsed from the first six bytes of the host stream. -/
def parsedRmsg (u : List (Nat × Bool)) : Nat :=
  le16 ((traceBytes u 6).getD 4 0) ((traceBytes u 6).getD 5 0)

/-- `frame_length` as parsed from the first six bytes of a frame-metadata
read. -/
def parsedFrameLength (u : List (Nat × Bool)) : Nat :=
  le16 ((traceBytes u 6).getD 2 0) ((traceBytes u 6).getD 3 0)

/-- `frame_version` as parsed from the first six bytes of a frame-metadata
read. -/
def parsedFrameVersion (u : List (Nat × Bool)) : Nat :=
  le16 ((traceBytes u 6).getD 4 0) ((traceBytes u 6).getD 5 0)

/-- `BufBound x`: every staging-buffer index the computation writes (in any
outcome) is below `DATA_SIZE`; indices already recorded before the run are
exempt. -/
def BufBound {α : Type} (x : M α) : Prop :=
  ∀ (s : St), ∀ j ∈ (stOf (x s)).bufWrites, j ∈ s.bufWrites ∨ j < DATA_SIZE

/-! ### Concrete states used by witnesses and counterexamples -/

/-- Trivial HMAC oracle: the all-zero 32-byte MAC for every message.  The
host owns `hmac_key`, so any MAC stream is realizable; abstracting the
external BearSSL computation this way is faithful for runs where the host
sends matching MACs. -/
def hmacF0 : List Nat → List Nat := fun _ => List.replicate 32 0

def gcmDecrypt0 : List Nat → List Nat := fun ct => ct

def gcmOk0 : List Nat → List Nat → List Nat → Bool := fun _ _ _ => true

/-- `n` good input cells carrying byte value `v`. -/
def goodCells (v n : Nat) : List (Nat × Bool) := List.replicate n (v, true)

/-- Input cells for a byte list, all reads succeeding. -/
def cellsOf (bs : List Nat) : List (Nat × Bool) := bs.map (fun b => (b, true))

/-- A state whose very first host-stream read reports a transport error. -/
def c3st : St :=
  { u1 := [(0, false)], u2 := [], out1 := [], flash := fun _ => 0,
    buf := fun _ => 0, bufWrites := [], msg := [], statuses := [] }

/-- The state in which the run on `c3st` ends. -/
def c3errSt : St := { c3st with u1 := [] }

/-- A state carrying firmware metadata with `version = 1` while the stored
version is `2`: the anti-rollback check must fire. -/
def c2st : St :=
  { u1 := cellsOf [1, 0, 0, 0, 0, 0] ++ goodCells 0 32, u2 := [], out1 := [],
    flash := fun a => if a = METADATA_BASE then 2 else 0,
    buf := fun _ => 0, bufWrites := [], msg := [], statuses := [] }

/-- All-zero-initialized state with a given host input stream. -/
def zeroSt (u : List (Nat × Bool)) : St :=
  { u1 := u, u2 := [], out1 := [], flash := fun _ => 0,
    buf := fun _ => 0, bufWrites := [], msg := [], statuses := [] }

/-- Frame-stage state whose frame metadata carries `frame_version = 1`. -/
def c5stepSt : St := zeroSt (cellsOf [0, 0, 0, 0, 1, 0] ++ goodCells 0 32)

/-- Run state whose firmware metadata carries `version = 1` followed by a
first frame (whose `frame_version` echoes 1). -/
def c5runSt : St :=
  zeroSt (cellsOf [1, 0, 4, 0, 0, 0] ++ goodCells 0 32 ++
          cellsOf [0, 0, 4, 0, 1, 0] ++ goodCells 0 32)

/-- Metadata with `fw_size = 30721 > FW_MAX_SIZE`. -/
def c6sizeSt : St := zeroSt (cellsOf [0, 0, 1, 120, 0, 0] ++ goodCells 0 32)

/-- Metadata with `release_msg_size = 1025 > RELEASE_MAX_SIZE`. -/
def c6msgSt : St := zeroSt (cellsOf [0, 0, 0, 0, 1, 4] ++ goodCells 0 32)

/-- Frame metadata with `frame_length = 1025 > FLASH_PAGESIZE`. -/
def c6frameSt : St := zeroSt (cellsOf [0, 0, 1, 4, 0, 0] ++ goodCells 0 32)

/-- One remaining payload byte while `bytes_recieved` already equals
`fw_size = 0`: the overrun check must fire. -/
def c6overSt : St := zeroSt [(7, true)]

/-- A state with distinct bytes pending on the host stream (UART1) and the
debug stream (UART2), to exhibit which stream `uart_read_variable` consumes. -/
def c1st : St :=
  { u1 := cellsOf [10, 11], u2 := cellsOf [99, 98], out1 := [],
    flash := fun _ => 0, buf := fun _ => 0, bufWrites := [], msg := [], statuses := [] }

/-- A complete debug upload: firmware metadata `(version 0, fw_size 2,
release_msg_size 1)`, one 2-byte frame, release message, all MACs matching
the trivial oracle, IV and tag. -/
def c4st : St := zeroSt (
  cellsOf [0, 0, 2, 0, 1, 0] ++ goodCells 0 32 ++
  cellsOf [0, 0, 2, 0, 0, 0] ++ goodCells 0 32 ++
  cellsOf [7, 8] ++ goodCells 0 32 ++
  goodCells 0 32 ++
  [(65, true)] ++ goodCells 0 32 ++
  goodCells 0 32 ++
  goodCells 0 16 ++ goodCells 0 16)

/-- Final state of the debug upload `c4st`. -/
def c4endSt : St := stOf (load_firmware hmacF0 gcmDecrypt0 gcmOk0 1 c4st)

/-- A complete upload whose firmware metadata carries `fw_size = 0`
(version 5, release_msg_size 1) with a single zero-length frame: the
saturating `frame_number` computation makes frame 0 the last frame, every
check passes, and the run reaches the flash commit. -/
def c9st : St := zeroSt (
  cellsOf [5, 0, 0, 0, 1, 0] ++ goodCells 0 32 ++
  cellsOf [0, 0, 0, 0, 5, 0] ++ goodCells 0 32 ++
  goodCells 0 32 ++
  goodCells 0 32 ++
  [(65, true)] ++ goodCells 0 32 ++
  goodCells 0 32 ++
  goodCells 0 16 ++ goodCells 0 16)

/-- Final state of the `fw_size = 0` upload `c9st`. -/
def c9endSt : St := stOf (load_firmware hmacF0 gcmDecrypt0 gcmOk0 1 c9st)

/-! ### Projection-preservation predicate -/

/-- `Pres g x`: running `x` never changes the `g`-projection of the state,
whichever way it ends. -/
def Pres {γ : Type} (g : St → γ) {α : Type} (x : M α) : Prop :=
  ∀ s, g (stOf (x s)) = g s

end Boot

namespace Boot

/-! ## Theorems -/

/-! ### Unfolding equations for the recursor-defined operations -/

theorem uart_read_go_zero : uart_read_go 0 = M.pure [] := rfl

theorem uart_read_go_succ (n : Nat) :
    uart_read_go (n + 1) =
      M.bind uart_read1 (fun vb =>
        if vb.2 then
          M.bind (uart_read_go n) (fun rest => M.pure (vb.1 :: rest))
        else M.fail) := rfl

theorem read_frame_bytes_zero (size index i br : Nat) :
    read_frame_bytes size index 0 i br = M.pure br := rfl

theorem read_frame_bytes_succ (size index n i br : Nat) :
    read_frame_bytes size index (n + 1) i br =
      M.bind uart_read1 (fun vb =>
      M.bind (bufWrite (FLASH_PAGESIZE * index + i) vb.1) (fun _ =>
        if ¬ vb.2 then M.fail
        else if br + 1 > size then M.fail
        else read_frame_bytes size index n (i + 1) (br + 1))) := rfl

theorem buf_write_list_nil (start : Nat) : buf_write_list start [] = M.pure () := rfl

theorem buf_write_list_cons (start b : Nat) (rest : List Nat) :
    buf_write_list start (b :: rest) =
      M.bind (bufWrite start b) (fun _ => buf_write_list (start + 1) rest) := rfl

theorem buf_zero_zero (start : Nat) : buf_zero start 0 = M.pure () := rfl

theorem buf_zero_succ (start n : Nat) :
    buf_zero start (n + 1) =
      M.bind (bufWrite start 0) (fun _ => buf_zero (start + 1) n) := rfl

theorem frame_loop_zero (hmacF : List Nat → List Nat) (version size frame_number ic br : Nat) :
    frame_loop hmacF version size frame_number 0 ic br = fun s => .spin s := rfl

theorem frame_loop_succ (hmacF : List Nat → List Nat)
    (version size frame_number fuel ic br : Nat) :
    frame_loop hmacF version size frame_number (fuel + 1) ic br =
      M.bind (frame_step hmacF version size frame_number ic br)
        (fun r =>
          if r.2.2 then M.pure r.2.1
          else frame_loop hmacF version size frame_number fuel r.1 r.2.1) := rfl

theorem flash_fw_loop_zero (size off : Nat) : flash_fw_loop size 0 off = M.pure () := rfl

theorem flash_fw_loop_succ (size n off : Nat) :
    flash_fw_loop size (n + 1) off =
      if off < size then
        M.bind (get_buf off (min FLASH_PAGESIZE (size - off))) (fun bytes =>
        M.bind (program_flash_m (FW_BASE + off) bytes) (fun ret =>
          if ret ≠ 0 then M.fail
          else flash_fw_loop size n (off + FLASH_PAGESIZE)))
      else M.pure () := rfl

/-! ### Basic facts about `Res`, `M.bind` and `stOf` -/

@[simp] theorem stOf_ok {α : Type} (a : α) (s : St) : stOf (Res.ok a s) = s := rfl

@[simp] theorem stOf_err {α : Type} (s : St) : stOf (Res.err (α := α) s) = s := rfl

@[simp] theorem stOf_spin {α : Type} (s : St) : stOf (Res.spin (α := α) s) = s := rfl

@[simp] theorem isErr_ok {α : Type} (a : α) (s : St) : isErr (Res.ok a s) = false := rfl

@[simp] theorem isErr_err {α : Type} (s : St) : isErr (Res.err (α := α) s) = true := rfl

@[simp] theorem isErr_spin {α : Type} (s : St) : isErr (Res.spin (α := α) s) = false := rfl

@[simp] theorem pure_apply {α : Type} (a : α) (s : St) : M.pure a s = Res.ok a s := rfl

@[simp] theorem fail_apply {α : Type} (s : St) : M.fail (α := α) s = Res.err s := rfl

theorem bind_apply {α β : Type} (x : M α) (f : α → M β) (s : St) :
    M.bind x f s =
      match x s with
      | .ok a s' => f a s'
      | .err s' => .err s'
      | .spin s' => .spin s' := rfl

@[simp] theorem bind_of_ok {α β : Type} {x : M α} {f : α → M β} {s s1 : St} {a : α}
    (h : x s = .ok a s1) : M.bind x f s = f a s1 := by
  rw [bind_apply, h]

@[simp] theorem bind_of_err {α β : Type} {x : M α} {f : α → M β} {s s1 : St}
    (h : x s = .err s1) : M.bind x f s = .err s1 := by
  rw [bind_apply, h]

@[simp] theorem bind_of_spin {α β : Type} {x : M α} {f : α → M β} {s s1 : St}
    (h : x s = .spin s1) : M.bind x f s = .spin s1 := by
  rw [bind_apply, h]

theorem bind_get_old_version {β : Type} (f : Nat → M β) (s : St) :
    M.bind get_old_version f s = f (old_version_of s.flash) s := rfl

theorem bind_uart_write1 {β : Type} (b : Nat) (f : Unit → M β) (s : St) :
    M.bind (uart_write1 b) f s = f () { s with out1 := s.out1 ++ [b] } := rfl

theorem bind_get_buf {β : Type} (start len : Nat) (f : List Nat → M β) (s : St) :
    M.bind (get_buf start len) f s = f (bufRead s.buf start len) s := rfl

theorem bind_set_msg {β : Type} (bytes : List Nat) (f : Unit → M β) (s : St) :
    M.bind (set_msg bytes) f s = f () { s with msg := bytes } := rfl

theorem bind_bufWrite {β : Type} (idx v : Nat) (f : Unit → M β) (s : St) :
    M.bind (bufWrite idx v) f s =
      f () { s with buf := fun a => if a = idx then v % 256 else s.buf a,
                    bufWrites := s.bufWrites ++ [idx] } := rfl

theorem bind_ok_iff {α β : Type} {x : M α} {f : α → M β} {s s' : St} {b : β} :
    M.bind x f s = .ok b s' ↔ ∃ a s1, x s = .ok a s1 ∧ f a s1 = .ok b s' := by
  cases h : x s with
  | ok a s1 =>
      rw [bind_of_ok h]
      constructor
      · intro hh; exact ⟨a, s1, rfl, hh⟩
      · rintro ⟨a', s1', he, hh⟩
        obtain ⟨rfl, rfl⟩ : a = a' ∧ s1 = s1' := by
          simpa [Res.ok.injEq] using he
        exact hh
  | err s1 => rw [bind_of_err h]; simp
  | spin s1 => rw [bind_of_spin h]; simp

theorem isErr_bind {α β : Type} {x : M α} {f : α → M β} {s : St}
    (h : isErr (x s) = true) : isErr (M.bind x f s) = true := by
  cases hx : x s with
  | ok a s1 => rw [hx] at h; simp [isErr] at h
  | err s1 => rw [bind_of_err hx]; rfl
  | spin s1 => rw [hx] at h; simp [isErr] at h

theorem isErr_bind_ok {α β : Type} {x : M α} {f : α → M β} {s s1 : St} {a : α}
    (hx : x s = .ok a s1) (h : isErr (f a s1) = true) :
    isErr (M.bind x f s) = true := by
  rw [bind_of_ok hx]; exact h

/-! ### Preservation lemmas -/

theorem pres_pure {γ α : Type} (g : St → γ) (a : α) : Pres g (M.pure a) := by
  intro s; rfl

theorem pres_fail {γ α : Type} (g : St → γ) : Pres g (M.fail (α := α)) := by
  intro s; rfl

theorem pres_bind {γ α β : Type} {g : St → γ} {x : M α} {f : α → M β}
    (hx : Pres g x) (hf : ∀ a, Pres g (f a)) : Pres g (M.bind x f) := by
  intro s
  have h1 := hx s
  cases h : x s with
  | ok a s1 =>
      rw [h] at h1; simp at h1
      rw [bind_of_ok h]
      rw [hf a s1, h1]
  | err s1 => rw [h] at h1; simp at h1; rw [bind_of_err h]; simpa using h1
  | spin s1 => rw [h] at h1; simp at h1; rw [bind_of_spin h]; simpa using h1

theorem pres_ite {γ α : Type} {g : St → γ} (c : Prop) [Decidable c] {x y : M α}
    (hx : Pres g x) (hy : Pres g y) : Pres g (if c then x else y) := by
  by_cases h : c <;> simp [h] <;> assumption

/-! ### The pre-commit phase never touches flash -/

theorem flash_uart_read1 : Pres St.flash uart_read1 := by
  intro s; unfold uart_read1; cases s.u1 <;> rfl

theorem flash_uart_read_go (n : Nat) : Pres St.flash (uart_read_go n) := by
  induction n with
  | zero => exact pres_pure _ _
  | succ n ih =>
      rw [uart_read_go_succ]
      exact pres_bind flash_uart_read1 (fun vb =>
        pres_ite _ (pres_bind ih (fun rest => pres_pure _ _)) (pres_fail _))

theorem flash_uart_read_variable (uart n : Nat) :
    Pres St.flash (uart_read_variable uart n) := flash_uart_read_go _

theorem flash_uart_write1 (b : Nat) : Pres St.flash (uart_write1 b) := by
  intro s; rfl

theorem flash_bufWrite (idx v : Nat) : Pres St.flash (bufWrite idx v) := by
  intro s; rfl

theorem flash_buf_write_list (bytes : List Nat) (start : Nat) :
    Pres St.flash (buf_write_list start bytes) := by
  induction bytes generalizing start with
  | nil => exact pres_pure _ _
  | cons b rest ih =>
      exact pres_bind (flash_bufWrite _ _) (fun _ => ih _)

theorem flash_buf_zero (n start : Nat) : Pres St.flash (buf_zero start n) := by
  induction n generalizing start with
  | zero => exact pres_pure _ _
  | succ n ih => exact pres_bind (flash_bufWrite _ _) (fun _ => ih _)

theorem flash_get_buf (start len : Nat) : Pres St.flash (get_buf start len) := by
  intro s; rfl

theorem flash_set_msg (bytes : List Nat) : Pres St.flash (set_msg bytes) := by
  intro s; rfl

theorem flash_get_old_version : Pres St.flash get_old_version := by
  intro s; rfl

theorem flash_sha_hmac (hmacF : List Nat → List Nat) (d : List Nat) :
    Pres St.flash (sha_hmac hmacF d) := by
  unfold sha_hmac
  refine pres_bind (flash_uart_read_variable _ _) (fun mac => ?_)
  exact pres_ite _ (pres_fail _) (pres_pure _ _)

theorem flash_gcm (gcmDecrypt : List Nat → List Nat)
    (gcmOk : List Nat → List Nat → List Nat → Bool) (n : Nat) :
    Pres St.flash (gcm_decrypt_and_verify gcmDecrypt gcmOk n) := by
  refine pres_bind (flash_uart_read_variable _ _) (fun iv => ?_)
  refine pres_bind (flash_uart_read_variable _ _) (fun tag => ?_)
  refine pres_bind (flash_get_buf _ _) (fun ct => ?_)
  refine pres_bind (flash_buf_write_list _ _) (fun _ => ?_)
  exact pres_ite _ (pres_fail _) (pres_pure _ _)

theorem flash_metadata_stage (hmacF : List Nat → List Nat) :
    Pres St.flash (metadata_stage hmacF) := by
  refine pres_bind (flash_uart_read_variable _ _) (fun md => ?_)
  refine pres_bind (flash_sha_hmac _ _) (fun _ => ?_)
  refine pres_bind flash_get_old_version (fun ov => ?_)
  refine pres_ite _ (pres_fail _) ?_
  refine pres_ite _ (pres_fail _) ?_
  refine pres_ite _ (pres_fail _) ?_
  exact pres_bind (flash_uart_write1 _) (fun _ => pres_pure _ _)

theorem flash_read_frame_bytes (size index : Nat) (n i br : Nat) :
    Pres St.flash (read_frame_bytes size index n i br) := by
  induction n generalizing i br with
  | zero => exact pres_pure _ _
  | succ n ih =>
      refine pres_bind flash_uart_read1 (fun vb => ?_)
      refine pres_bind (flash_bufWrite _ _) (fun _ => ?_)
      refine pres_ite _ (pres_fail _) ?_
      exact pres_ite _ (pres_fail _) (ih _ _)

theorem flash_frame_step (hmacF : List Nat → List Nat)
    (version size frame_number index_check bytes_recieved : Nat) :
    Pres St.flash (frame_step hmacF version size frame_number index_check bytes_recieved) := by
  refine pres_bind (flash_uart_read_variable _ _) (fun fr => ?_)
  refine pres_bind (flash_sha_hmac _ _) (fun _ => ?_)
  refine pres_ite _ (pres_fail _) ?_
  refine pres_ite _ (pres_fail _) ?_
  refine pres_ite _ (pres_fail _) ?_
  refine pres_bind (flash_read_frame_bytes _ _ _ _ _) (fun br => ?_)
  refine pres_bind (flash_buf_write_list _ _) (fun _ => ?_)
  refine pres_bind (flash_get_buf _ _) (fun chunk => ?_)
  refine pres_bind (flash_sha_hmac _ _) (fun _ => ?_)
  exact pres_bind (flash_uart_write1 _) (fun _ => pres_pure _ _)

theorem flash_frame_loop (hmacF : List Nat → List Nat)
    (version size frame_number fuel index_check bytes_recieved : Nat) :
    Pres St.flash (frame_loop hmacF version size frame_number fuel index_check bytes_recieved) := by
  induction fuel generalizing index_check bytes_recieved with
  | zero => intro s; rfl
  | succ fuel ih =>
      refine pres_bind (flash_frame_step _ _ _ _ _ _) (fun r => ?_)
      exact pres_ite _ (pres_pure _ _) (ih _ _)

theorem flash_post_loop_stage (hmacF gcmDecrypt : List Nat → List Nat)
    (gcmOk : List Nat → List Nat → List Nat → Bool)
    (size r_msg_size : Nat) (md : List Nat) :
    Pres St.flash (post_loop_stage hmacF gcmDecrypt gcmOk size r_msg_size md) := by
  refine pres_bind (flash_get_buf _ _) (fun fw => ?_)
  refine pres_bind (flash_sha_hmac _ _) (fun _ => ?_)
  refine pres_bind (flash_uart_write1 _) (fun _ => ?_)
  refine pres_bind (flash_uart_read_variable _ _) (fun msgBytes => ?_)
  refine pres_bind (flash_set_msg _) (fun _ => ?_)
  refine pres_bind (flash_sha_hmac _ _) (fun _ => ?_)
  refine pres_bind (flash_uart_write1 _) (fun _ => ?_)
  refine pres_bind (flash_buf_write_list _ _) (fun _ => ?_)
  refine pres_bind (flash_buf_write_list _ _) (fun _ => ?_)
  refine pres_bind (flash_get_buf _ _) (fun all => ?_)
  refine pres_bind (flash_sha_hmac _ _) (fun _ => ?_)
  refine pres_bind (flash_buf_zero _ _) (fun _ => ?_)
  refine pres_bind (flash_uart_write1 _) (fun _ => ?_)
  exact pres_bind (flash_gcm _ _ _) (fun _ => flash_uart_write1 _)

theorem flash_pre_commit (hmacF gcmDecrypt : List Nat → List Nat)
    (gcmOk : List Nat → List Nat → List Nat → Bool) (fuel : Nat) :
    Pres St.flash (pre_commit hmacF gcmDecrypt gcmOk fuel) := by
  refine pres_bind (flash_metadata_stage _) (fun meta => ?_)
  refine pres_bind (flash_frame_loop _ _ _ _ _ _ _) (fun br => ?_)
  refine pres_ite _ (pres_fail _) ?_
  exact pres_bind (flash_post_loop_stage _ _ _ _ _ _) (fun _ => pres_pure _ _)

/-! ### Trace bytes -/

@[simp] theorem traceBytes_nil (n : Nat) : traceBytes [] n = [] := by
  simp [traceBytes]

@[simp] theorem traceBytes_zero (u : List (Nat × Bool)) : traceBytes u 0 = [] := by
  simp [traceBytes]

@[simp] theorem traceBytes_cons (a : Nat) (b : Bool) (tl : List (Nat × Bool)) (n : Nat) :
    traceBytes ((a, b) :: tl) (n + 1) = a % 256 :: traceBytes tl n := by
  simp [traceBytes]

theorem traceBytes_length (u : List (Nat × Bool)) (n : Nat) (h : n ≤ u.length) :
    (traceBytes u n).length = n := by
  simp [traceBytes]; omega

/-! ### Characterization of the serial reads -/

theorem uart_read_go_ok_inv (n : Nat) : ∀ (s : St) {v : List Nat} {s' : St},
    uart_read_go n s = .ok v s' →
    v = traceBytes s.u1 n ∧ s' = { s with u1 := s.u1.drop n } ∧ n ≤ s.u1.length := by
  induction n with
  | zero =>
      intro s v s' h
      have hv : v = [] ∧ s' = s := by
        simpa [uart_read_go_zero, M.pure, Res.ok.injEq, eq_comm] using h
      obtain ⟨rfl, rfl⟩ := hv
      simp
  | succ n ih =>
      intro s v s' h
      match hu : s.u1 with
      | [] =>
          rw [uart_read_go_succ, bind_apply] at h
          simp [uart_read1, hu] at h
      | (a, flag) :: tl =>
          rw [uart_read_go_succ, bind_apply] at h
          simp only [uart_read1, hu] at h
          cases flag with
          | false => simp [M.fail] at h
          | true =>
              simp only [if_true] at h
              rw [bind_apply] at h
              cases hgo : uart_read_go n { s with u1 := tl } with
              | ok rest s2 =>
                  rw [hgo] at h
                  simp only [M.pure, Res.ok.injEq] at h
                  obtain ⟨rfl, rfl⟩ := h
                  obtain ⟨hrest, hs2, hlen⟩ := ih _ hgo
                  subst hrest
                  have hlen' : n ≤ tl.length := by simpa using hlen
                  refine ⟨by simp [hu], ?_, by simp [hu]; omega⟩
                  rw [hs2]
                  simp [hu]
              | err s2 => rw [hgo] at h; simp at h
              | spin s2 => rw [hgo] at h; simp at h

theorem uart_read_go_total (n : Nat) : ∀ (s : St), n ≤ s.u1.length →
    uart_read_go n s = .ok (traceBytes s.u1 n) { s with u1 := s.u1.drop n } ∨
    isErr (uart_read_go n s) = true := by
  induction n with
  | zero => intro s _; left; simp [uart_read_go_zero, M.pure]
  | succ n ih =>
      intro s h
      match hu : s.u1 with
      | [] => rw [hu] at h; simp at h
      | (a, flag) :: tl =>
          have hstep : uart_read1 s = .ok (a % 256, flag) { s with u1 := tl } := by
            simp [uart_read1, hu]
          cases flag with
          | false =>
              right
              rw [uart_read_go_succ]
              rw [bind_of_ok hstep]
              simp [M.fail]
          | true =>
              have hlen : n ≤ tl.length := by rw [hu] at h; simpa using h
              cases ih { s with u1 := tl } hlen with
              | inl hok =>
                  left
                  rw [uart_read_go_succ]
                  rw [bind_of_ok hstep]
                  simp only [if_true]
                  rw [bind_of_ok hok]
                  simp [M.pure, hu]
              | inr herr =>
                  right
                  rw [uart_read_go_succ]
                  rw [bind_of_ok hstep]
                  simp only [if_true]
                  exact isErr_bind herr

theorem uart_read_variable_ok_inv (uart n : Nat) {s : St} {v : List Nat} {s' : St}
    (h : uart_read_variable uart n s = .ok v s') :
    v = traceBytes s.u1 (min n FLASH_PAGESIZE) ∧
    s' = { s with u1 := s.u1.drop (min n FLASH_PAGESIZE) } ∧
    min n FLASH_PAGESIZE ≤ s.u1.length :=
  uart_read_go_ok_inv _ _ h

/-! ### Characterization of `sha_hmac` -/

theorem sha_hmac_ok_inv (hmacF : List Nat → List Nat) (d : List Nat) {s : St}
    {a : Nat} {s' : St} (h : sha_hmac hmacF d s = .ok a s') :
    a = 32 ∧ s' = { s with u1 := s.u1.drop 32 } ∧ 32 ≤ s.u1.length ∧
    (ct_or_fold (traceBytes s.u1 32) (hmacF d) 0).1 = 0 := by
  rw [sha_hmac] at h
  cases hu : uart_read_variable UART2 HMAC_SIZE s with
  | ok mac s1 =>
      rw [bind_of_ok hu] at h
      obtain ⟨hmac, hs1, hlen⟩ := uart_read_variable_ok_inv _ _ hu
      have hmin : min HMAC_SIZE FLASH_PAGESIZE = 32 := by decide
      rw [hmin] at hmac hs1 hlen
      by_cases hc : (ct_or_fold mac (hmacF d) 0).1 ≠ 0
      · simp [hc, M.fail] at h
      · rw [if_neg hc] at h
        simp only [M.pure, Res.ok.injEq] at h
        push_neg at hc
        rcases h with ⟨rfl, rfl⟩
        subst hmac hs1
        exact ⟨rfl, rfl, hlen, hc⟩
  | err s1 => rw [bind_of_err hu] at h; simp at h
  | spin s1 => rw [bind_of_spin hu] at h; simp at h

theorem sha_hmac_total (hmacF : List Nat → List Nat) (d : List Nat) (s : St)
    (h : 32 ≤ s.u1.length) :
    sha_hmac hmacF d s = .ok 32 { s with u1 := s.u1.drop 32 } ∨
    isErr (sha_hmac hmacF d s) = true := by
  have hmin : min HMAC_SIZE FLASH_PAGESIZE = 32 := by decide
  have htot := uart_read_go_total 32 s h
  cases htot with
  | inl hok =>
      by_cases hc : (ct_or_fold (traceBytes s.u1 32) (hmacF d) 0).1 ≠ 0
      · right
        rw [sha_hmac]
        refine isErr_bind_ok (show uart_read_variable UART2 HMAC_SIZE s = _ by
          rw [uart_read_variable, hmin]; exact hok) ?_
        simp [hc, M.fail]
      · left
        rw [sha_hmac]
        rw [bind_of_ok (show uart_read_variable UART2 HMAC_SIZE s = _ by
          rw [uart_read_variable, hmin]; exact hok)]
        simp [hc, M.pure]
  | inr herr =>
      right
      rw [sha_hmac]
      refine isErr_bind ?_
      rw [uart_read_variable, hmin]
      exact herr

/-! ### The metadata stage rejects bad version / size / message-size -/

theorem metadata_stage_err_of_checks (hmacF : List Nat → List Nat) (s : St)
    (h38 : 38 ≤ s.u1.length)
    (hbad : (parsedVersion s.u1 ≠ 0 ∧ parsedVersion s.u1 < old_version_of s.flash) ∨
            parsedSize s.u1 > FW_MAX_SIZE ∨ parsedRmsg s.u1 > RELEASE_MAX_SIZE) :
    isErr (metadata_stage hmacF s) = true := by
  rw [metadata_stage]
  have h6 : 6 ≤ s.u1.length := by omega
  have hmin6 : min FW_METADATA_SIZE FLASH_PAGESIZE = 6 := by decide
  have hchan : ∀ v1 s1, uart_read_go 6 s = .ok v1 s1 →
      uart_read_variable UART1 FW_METADATA_SIZE s = .ok v1 s1 := by
    intro v1 s1 hh; rw [uart_read_variable, hmin6]; exact hh
  cases uart_read_go_total 6 s h6 with
  | inr herr =>
      refine isErr_bind ?_
      rw [uart_read_variable, hmin6]; exact herr
  | inl hok =>
      refine isErr_bind_ok (hchan _ _ hok) ?_
      have h32 : 32 ≤ ({ s with u1 := s.u1.drop 6 } : St).u1.length := by
        simp; omega
      cases sha_hmac_total hmacF (traceBytes s.u1 6) _ h32 with
      | inr herr => exact isErr_bind herr
      | inl hok2 =>
          refine isErr_bind_ok hok2 ?_
          refine isErr_bind_ok (show get_old_version _ = .ok (old_version_of s.flash) _ from rfl) ?_
          by_cases hc1 : le16 ((traceBytes s.u1 6).getD 0 0) ((traceBytes s.u1 6).getD 1 0) ≠ 0 ∧
              le16 ((traceBytes s.u1 6).getD 0 0) ((traceBytes s.u1 6).getD 1 0) <
                old_version_of s.flash
          · rw [if_pos hc1]; rfl
          · rw [if_neg hc1]
            by_cases hc2 : le16 ((traceBytes s.u1 6).getD 2 0) ((traceBytes s.u1 6).getD 3 0) >
                FW_MAX_SIZE
            · rw [if_pos hc2]; rfl
            · rw [if_neg hc2]
              by_cases hc3 : le16 ((traceBytes s.u1 6).getD 4 0) ((traceBytes s.u1 6).getD 5 0) >
                  RELEASE_MAX_SIZE
              · rw [if_pos hc3]; rfl
              · exfalso
                rcases hbad with hb | hb | hb
                · exact hc1 hb
                · exact hc2 hb
                · exact hc3 hb

/-- C2: for every firmware metadata whose parsed version `v` satisfies
`v ≠ 0` and `v <` the stored version persisted at `METADATA_BASE`,
`load_firmware` rejects the update at the metadata stage via the error
path — whatever the HMAC oracle says, i.e. even when the metadata HMAC is
valid. -/
theorem c2_rollback_rejected (hmacF gcmDecrypt : List Nat → List Nat)
    (gcmOk : List Nat → List Nat → List Nat → Bool) (fuel : Nat) (s : St)
    (h38 : 38 ≤ s.u1.length)
    (hv0 : parsedVersion s.u1 ≠ 0)
    (hlt : parsedVersion s.u1 < old_version_of s.flash) :
    isErr (metadata_stage hmacF s) = true ∧
    isErr (load_firmware hmacF gcmDecrypt gcmOk fuel s) = true := by
  have hm := metadata_stage_err_of_checks hmacF s h38 (Or.inl ⟨hv0, hlt⟩)
  refine ⟨hm, ?_⟩
  rw [load_firmware]
  refine isErr_bind ?_
  rw [pre_commit]
  exact isErr_bind hm

/-- C2 witness: a concrete upload with metadata version 1 against stored
version 2 is rejected. -/
theorem c2_rollback_rejected_witness :
    38 ≤ c2st.u1.length ∧ parsedVersion c2st.u1 ≠ 0 ∧
    parsedVersion c2st.u1 < old_version_of c2st.flash ∧
    isErr (load_firmware hmacF0 gcmDecrypt0 gcmOk0 1 c2st) = true :=
  ⟨by decide, by decide, by decide,
    (c2_rollback_rejected hmacF0 gcmDecrypt0 gcmOk0 1 c2st
      (by decide) (by decide) (by decide)).2⟩

/-- C3: a rejection anywhere in the pre-commit phase of `load_firmware`
(transport error, HMAC mismatch, bounds or version failure, GCM failure)
leaves the whole flash — metadata page, release-message page and firmware
region — bit-identical to its pre-update state: no flash write happens
before the commit phase. -/
theorem c3_pre_commit_rejection_flash_unchanged (hmacF gcmDecrypt : List Nat → List Nat)
    (gcmOk : List Nat → List Nat → List Nat → Bool) (fuel : Nat) (s s' : St)
    (h : pre_commit hmacF gcmDecrypt gcmOk fuel s = Res.err s') :
    s'.flash = s.flash := by
  have hp := flash_pre_commit hmacF gcmDecrypt gcmOk fuel s
  rw [h] at hp
  simpa using hp

/-- C3 witness: a concrete transport error on the first metadata byte leaves
flash untouched. -/
theorem c3_pre_commit_rejection_flash_unchanged_witness :
    pre_commit hmacF0 gcmDecrypt0 gcmOk0 1 c3st = Res.err c3errSt ∧
    c3errSt.flash = c3st.flash :=
  ⟨rfl, c3_pre_commit_rejection_flash_unchanged hmacF0 gcmDecrypt0 gcmOk0 1 c3st c3errSt rfl⟩

/-! ### Frame-stage error helpers -/

theorem frame_step_err_of (hmacF : List Nat → List Nat)
    (version size frame_number index_check bytes_recieved : Nat) (s : St)
    (h38 : 38 ≤ s.u1.length)
    (hbad : parsedFrameLength s.u1 > FLASH_PAGESIZE ∨
            parsedFrameVersion s.u1 = 1 ∨ version = 1) :
    isErr (frame_step hmacF version size frame_number index_check bytes_recieved s) = true := by
  rw [parsedFrameLength, parsedFrameVersion] at hbad
  rw [frame_step]
  have h6 : 6 ≤ s.u1.length := by omega
  have hmin6 : min FR_METADATA_SIZE FLASH_PAGESIZE = 6 := by decide
  cases uart_read_go_total 6 s h6 with
  | inr herr =>
      refine isErr_bind ?_
      rw [uart_read_variable, hmin6]; exact herr
  | inl hok =>
      refine isErr_bind_ok (show uart_read_variable UART2 FR_METADATA_SIZE s = _ by
        rw [uart_read_variable, hmin6]; exact hok) ?_
      have h32 : 32 ≤ ({ s with u1 := s.u1.drop 6 } : St).u1.length := by
        simp; omega
      cases sha_hmac_total hmacF (traceBytes s.u1 6) _ h32 with
      | inr herr => exact isErr_bind herr
      | inl hok2 =>
          refine isErr_bind_ok hok2 ?_
          by_cases hc1 : le16 ((traceBytes s.u1 6).getD 0 0) ((traceBytes s.u1 6).getD 1 0) ≠
              index_check ∨
              le16 ((traceBytes s.u1 6).getD 0 0) ((traceBytes s.u1 6).getD 1 0) > frame_number
          · rw [if_pos hc1]; rfl
          · rw [if_neg hc1]
            rcases hbad with hb | hb
            · rw [if_pos hb]; rfl
            · by_cases hc2 : le16 ((traceBytes s.u1 6).getD 2 0) ((traceBytes s.u1 6).getD 3 0) >
                  FLASH_PAGESIZE
              · rw [if_pos hc2]; rfl
              · rw [if_neg hc2]
                have hc3 : version ≠ le16 ((traceBytes s.u1 6).getD 4 0)
                    ((traceBytes s.u1 6).getD 5 0) ∨
                    le16 ((traceBytes s.u1 6).getD 4 0) ((traceBytes s.u1 6).getD 5 0) = 1 := by
                  rcases hb with hb1 | hb1
                  · exact Or.inr hb1
                  · by_cases hfv : le16 ((traceBytes s.u1 6).getD 4 0)
                        ((traceBytes s.u1 6).getD 5 0) = 1
                    · exact Or.inr hfv
                    · exact Or.inl (by omega)
                rw [if_pos hc3]; rfl

theorem read_frame_bytes_err_of_overrun (size index : Nat) :
    ∀ (n i bytes_recieved : Nat) (s : St), 1 ≤ n → n ≤ s.u1.length →
    size < bytes_recieved + n →
    isErr (read_frame_bytes size index n i bytes_recieved s) = true := by
  intro n
  induction n with
  | zero => intro i br s h1 _ _; omega
  | succ n ih =>
      intro i br s _ hlen hover
      match hu : s.u1 with
      | [] => rw [hu] at hlen; simp at hlen
      | (a, flag) :: tl =>
          rw [read_frame_bytes_succ]
          have hstep : uart_read1 s = .ok (a % 256, flag) { s with u1 := tl } := by
            simp [uart_read1, hu]
          refine isErr_bind_ok hstep ?_
          refine isErr_bind_ok (show bufWrite (FLASH_PAGESIZE * index + i) (a % 256) _ = _
            from rfl) ?_
          cases flag with
          | false => simp [M.fail]
          | true =>
              simp only [Bool.not_true, if_false]
              by_cases hbr : br + 1 > size
              · rw [if_pos hbr]; rfl
              · rw [if_neg hbr]
                have hn1 : 1 ≤ n := by omega
                have hlen' : n ≤ tl.length := by
                  rw [hu] at hlen; simpa using hlen
                have hover' : size < br + 1 + n := by omega
                exact ih (i + 1) (br + 1) _ hn1 (by simpa using hlen') hover'

/-! ### Metadata-stage totality -/

theorem metadata_stage_total (hmacF : List Nat → List Nat) (s : St)
    (h38 : 38 ≤ s.u1.length) :
    isErr (metadata_stage hmacF s) = true ∨
    metadata_stage hmacF s =
      .ok (parsedVersion s.u1, parsedSize s.u1, parsedRmsg s.u1, traceBytes s.u1 6)
        { s with u1 := s.u1.drop 38, out1 := s.out1 ++ [OK_BYTE] } := by
  rw [metadata_stage]
  have h6 : 6 ≤ s.u1.length := by omega
  have hmin6 : min FW_METADATA_SIZE FLASH_PAGESIZE = 6 := by decide
  cases uart_read_go_total 6 s h6 with
  | inr herr =>
      left
      refine isErr_bind ?_
      rw [uart_read_variable, hmin6]; exact herr
  | inl hok =>
      have hchan : uart_read_variable UART1 FW_METADATA_SIZE s =
          .ok (traceBytes s.u1 6) { s with u1 := s.u1.drop 6 } := by
        rw [uart_read_variable, hmin6]; exact hok
      have h32 : 32 ≤ ({ s with u1 := s.u1.drop 6 } : St).u1.length := by
        simp; omega
      cases sha_hmac_total hmacF (traceBytes s.u1 6) _ h32 with
      | inr herr =>
          left
          rw [bind_of_ok hchan]
          exact isErr_bind herr
      | inl hok2 =>
          by_cases hc1 : le16 ((traceBytes s.u1 6).getD 0 0) ((traceBytes s.u1 6).getD 1 0) ≠ 0 ∧
              le16 ((traceBytes s.u1 6).getD 0 0) ((traceBytes s.u1 6).getD 1 0) <
                old_version_of s.flash
          · left
            rw [bind_of_ok hchan]
            refine isErr_bind_ok hok2 ?_
            refine isErr_bind_ok (show get_old_version _ = .ok (old_version_of s.flash) _
              from rfl) ?_
            rw [if_pos hc1]; rfl
          · by_cases hc2 : le16 ((traceBytes s.u1 6).getD 2 0) ((traceBytes s.u1 6).getD 3 0) >
                FW_MAX_SIZE
            · left
              rw [bind_of_ok hchan]
              refine isErr_bind_ok hok2 ?_
              refine isErr_bind_ok (show get_old_version _ = .ok (old_version_of s.flash) _
                from rfl) ?_
              rw [if_neg hc1, if_pos hc2]; rfl
            · by_cases hc3 : le16 ((traceBytes s.u1 6).getD 4 0) ((traceBytes s.u1 6).getD 5 0) >
                  RELEASE_MAX_SIZE
              · left
                rw [bind_of_ok hchan]
                refine isErr_bind_ok hok2 ?_
                refine isErr_bind_ok (show get_old_version _ = .ok (old_version_of s.flash) _
                  from rfl) ?_
                rw [if_neg hc1, if_neg hc2, if_pos hc3]; rfl
              · right
                rw [bind_of_ok hchan]
                rw [bind_of_ok hok2]
                rw [bind_get_old_version]
                rw [if_neg hc1, if_neg hc2, if_neg hc3]
                rw [bind_uart_write1]
                simp only [M.pure, Res.ok.injEq]
                constructor
                · rfl
                · simp [List.drop_drop]

/-- C5: (a) every frame whose parsed `frame_version` equals 1 makes the
frame step take the error path, regardless of the HMAC oracle and of all
other parameters; (b) an update whose firmware metadata carries version 1
never gets past the first frame's version check: `load_firmware` takes the
error path. -/
theorem c5_version_one_always_rejected :
    (∀ (hmacF : List Nat → List Nat) (version size frame_number index_check br : Nat) (s : St),
      38 ≤ s.u1.length → parsedFrameVersion s.u1 = 1 →
      isErr (frame_step hmacF version size frame_number index_check br s) = true) ∧
    (∀ (hmacF gcmDecrypt : List Nat → List Nat)
      (gcmOk : List Nat → List Nat → List Nat → Bool) (fuel : Nat) (s : St),
      1 ≤ fuel → 76 ≤ s.u1.length → parsedVersion s.u1 = 1 →
      isErr (load_firmware hmacF gcmDecrypt gcmOk fuel s) = true) := by
  constructor
  · intro hmacF version size frame_number index_check br s h38 hfv
    exact frame_step_err_of hmacF version size frame_number index_check br s h38
      (Or.inr (Or.inl hfv))
  · intro hmacF gcmDecrypt gcmOk fuel s hfuel h76 hv
    obtain ⟨k, rfl⟩ : ∃ k, fuel = k + 1 := ⟨fuel - 1, by omega⟩
    rw [load_firmware]
    refine isErr_bind ?_
    rw [pre_commit]
    cases metadata_stage_total hmacF s (by omega) with
    | inl herr => exact isErr_bind herr
    | inr hok =>
        refine isErr_bind_ok hok ?_
        refine isErr_bind ?_
        rw [frame_loop_succ]
        refine isErr_bind ?_
        refine frame_step_err_of hmacF _ _ _ _ _ _ ?_ (Or.inr (Or.inr hv))
        simp
        omega

/-- C5 witness: both parts at concrete inputs — a frame carrying
`frame_version = 1`, and a full run whose metadata carries version 1. -/
theorem c5_version_one_always_rejected_witness :
    (38 ≤ c5stepSt.u1.length ∧ parsedFrameVersion c5stepSt.u1 = 1 ∧
      isErr (frame_step hmacF0 1 4 0 0 0 c5stepSt) = true) ∧
    (76 ≤ c5runSt.u1.length ∧ parsedVersion c5runSt.u1 = 1 ∧
      isErr (load_firmware hmacF0 gcmDecrypt0 gcmOk0 1 c5runSt) = true) :=
  ⟨⟨by decide, by decide,
      c5_version_one_always_rejected.1 hmacF0 1 4 0 0 0 c5stepSt (by decide) (by decide)⟩,
   ⟨by decide, by decide,
      c5_version_one_always_rejected.2 hmacF0 gcmDecrypt0 gcmOk0 1 c5runSt
        (by decide) (by decide) (by decide)⟩⟩

/-- C6: each of the four bounds violations takes the error path: metadata
`fw_size > FW_MAX_SIZE`, metadata `release_msg_size > RELEASE_MAX_SIZE`, a
frame with `frame_length > FLASH_PAGESIZE`, and the running count of
received firmware bytes exceeding `fw_size`. -/
theorem c6_bounds_rejected :
    (∀ (hmacF gcmDecrypt : List Nat → List Nat)
      (gcmOk : List Nat → List Nat → List Nat → Bool) (fuel : Nat) (s : St),
      38 ≤ s.u1.length → parsedSize s.u1 > FW_MAX_SIZE →
      isErr (load_firmware hmacF gcmDecrypt gcmOk fuel s) = true) ∧
    (∀ (hmacF gcmDecrypt : List Nat → List Nat)
      (gcmOk : List Nat → List Nat → List Nat → Bool) (fuel : Nat) (s : St),
      38 ≤ s.u1.length → parsedRmsg s.u1 > RELEASE_MAX_SIZE →
      isErr (load_firmware hmacF gcmDecrypt gcmOk fuel s) = true) ∧
    (∀ (hmacF : List Nat → List Nat) (version size frame_number index_check br : Nat) (s : St),
      38 ≤ s.u1.length → parsedFrameLength s.u1 > FLASH_PAGESIZE →
      isErr (frame_step hmacF version size frame_number index_check br s) = true) ∧
    (∀ (size index n i br : Nat) (s : St),
      1 ≤ n → n ≤ s.u1.length → size < br + n →
      isErr (read_frame_bytes size index n i br s) = true) := by
  refine ⟨?_, ?_, ?_, ?_⟩
  · intro hmacF gcmDecrypt gcmOk fuel s h38 hsz
    rw [load_firmware]
    refine isErr_bind ?_
    rw [pre_commit]
    exact isErr_bind (metadata_stage_err_of_checks hmacF s h38 (Or.inr (Or.inl hsz)))
  · intro hmacF gcmDecrypt gcmOk fuel s h38 hr
    rw [load_firmware]
    refine isErr_bind ?_
    rw [pre_commit]
    exact isErr_bind (metadata_stage_err_of_checks hmacF s h38 (Or.inr (Or.inr hr)))
  · intro hmacF version size frame_number index_check br s h38 hfl
    exact frame_step_err_of hmacF version size frame_number index_check br s h38 (Or.inl hfl)
  · intro size index n i br s h1 hlen hover
    exact read_frame_bytes_err_of_overrun size index n i br s h1 hlen hover

/-- C6 witness: all four bounds at concrete inputs — `fw_size = 30721`,
`release_msg_size = 1025`, `frame_length = 1025`, and one payload byte
arriving when `bytes_recieved` already equals `fw_size`. -/
theorem c6_bounds_rejected_witness :
    (38 ≤ c6sizeSt.u1.length ∧ parsedSize c6sizeSt.u1 > FW_MAX_SIZE ∧
      isErr (load_firmware hmacF0 gcmDecrypt0 gcmOk0 1 c6sizeSt) = true) ∧
    (38 ≤ c6msgSt.u1.length ∧ parsedRmsg c6msgSt.u1 > RELEASE_MAX_SIZE ∧
      isErr (load_firmware hmacF0 gcmDecrypt0 gcmOk0 1 c6msgSt) = true) ∧
    (38 ≤ c6frameSt.u1.length ∧ parsedFrameLength c6frameSt.u1 > FLASH_PAGESIZE ∧
      isErr (frame_step hmacF0 0 4 0 0 0 c6frameSt) = true) ∧
    (1 ≤ 1 ∧ 1 ≤ c6overSt.u1.length ∧ 0 < 0 + 1 ∧
      isErr (read_frame_bytes 0 0 1 0 0 c6overSt) = true) :=
  ⟨⟨by decide, by decide,
      c6_bounds_rejected.1 hmacF0 gcmDecrypt0 gcmOk0 1 c6sizeSt (by decide) (by decide)⟩,
   ⟨by decide, by decide,
      c6_bounds_rejected.2.1 hmacF0 gcmDecrypt0 gcmOk0 1 c6msgSt (by decide) (by decide)⟩,
   ⟨by decide, by decide,
      c6_bounds_rejected.2.2.1 hmacF0 0 4 0 0 0 c6frameSt (by decide) (by decide)⟩,
   ⟨by decide, by decide, by decide,
      c6_bounds_rejected.2.2.2 0 0 1 0 0 c6overSt (by decide) (by decide) (by decide)⟩⟩

/-! ### C1: the debug input stream is never the source of the authenticators -/

theorem u2_uart_read1 : Pres St.u2 uart_read1 := by
  intro s; unfold uart_read1; cases s.u1 <;> rfl

theorem u2_uart_read_go (n : Nat) : Pres St.u2 (uart_read_go n) := by
  induction n with
  | zero => exact pres_pure _ _
  | succ n ih =>
      rw [uart_read_go_succ]
      exact pres_bind u2_uart_read1 (fun vb =>
        pres_ite _ (pres_bind ih (fun rest => pres_pure _ _)) (pres_fail _))

/-- C1: `uart_read_variable` ignores its channel argument — the body reads
`uart_read(UART1, ...)` (bootloader.c:201) — so every authenticator read
that names the debug channel UART2 (the 32-byte MACs in `sha_hmac`, the IV
and tag in `gcm_decrypt_and_verify`) in fact consumes host-channel (UART1)
bytes and leaves the debug input stream untouched: on a concrete state the
bytes returned are the pending UART1 bytes.  This contradicts the spec,
which requires those bytes to come from the debug channel. -/
theorem c1_authenticators_consume_uart1 :
    (∀ (uart n : Nat) (s : St), (stOf (uart_read_variable uart n s)).u2 = s.u2) ∧
    uart_read_variable UART2 2 c1st = Res.ok [10, 11] { c1st with u1 := [] } ∧
    c1st.u2 = cellsOf [99, 98] :=
  ⟨fun _ n => u2_uart_read_go (min n FLASH_PAGESIZE), rfl, rfl⟩

/-! ### C7: the constant-time HMAC compare -/

theorem or_zero_iff (c d : Nat) : c ||| d = 0 ↔ c = 0 ∧ d = 0 := by
  constructor
  · intro h
    constructor
    · refine Nat.eq_of_testBit_eq (fun i => ?_)
      have hb := congrArg (Nat.testBit · i) h
      simp only [Nat.testBit_or, Nat.zero_testBit, Bool.or_eq_false_iff] at hb ⊢
      exact hb.1
    · refine Nat.eq_of_testBit_eq (fun i => ?_)
      have hb := congrArg (Nat.testBit · i) h
      simp only [Nat.testBit_or, Nat.zero_testBit, Bool.or_eq_false_iff] at hb ⊢
      exact hb.2
  · rintro ⟨rfl, rfl⟩; rfl

theorem ct_or_fold_fst_eq_zero : ∀ (a b : List Nat) (c : Nat),
    (ct_or_fold a b c).1 = 0 ↔ c = 0 ∧ ∀ p ∈ a.zip b, p.1 = p.2 := by
  intro a
  induction a with
  | nil => intro b c; simp [ct_or_fold]
  | cons x xs ih =>
      intro b c
      cases b with
      | nil => simp [ct_or_fold]
      | cons y ys =>
          rw [ct_or_fold]
          simp only [List.zip_cons_cons, List.mem_cons]
          rw [ih]
          rw [or_zero_iff, Nat.xor_eq_zero]
          constructor
          · rintro ⟨⟨hc, hxy⟩, hrest⟩
            exact ⟨hc, fun p hp => by
              rcases hp with rfl | hp
              · exact hxy
              · exact hrest p hp⟩
          · rintro ⟨hc, hall⟩
            exact ⟨⟨hc, hall (x, y) (Or.inl rfl)⟩, fun p hp => hall p (Or.inr hp)⟩

theorem zip_pointwise_eq : ∀ (a b : List Nat), a.length = b.length →
    ((∀ p ∈ a.zip b, p.1 = p.2) ↔ a = b) := by
  intro a
  induction a with
  | nil =>
      intro b h
      cases b with
      | nil => simp
      | cons y ys => simp at h
  | cons x xs ih =>
      intro b h
      cases b with
      | nil => simp at h
      | cons y ys =>
          simp only [List.zip_cons_cons, List.mem_cons, List.cons.injEq]
          rw [← ih ys (by simpa using h)]
          constructor
          · intro hall
            exact ⟨hall (x, y) (Or.inl rfl), fun p hp => hall p (Or.inr hp)⟩
          · rintro ⟨hxy, hrest⟩
            exact fun p hp => by
              rcases hp with rfl | hp
              · exact hxy
              · exact hrest p hp

theorem ct_or_fold_snd (a : List Nat) : ∀ (b : List Nat) (c : Nat),
    (ct_or_fold a b c).2 = min a.length b.length := by
  induction a with
  | nil => intro b c; simp [ct_or_fold]
  | cons x xs ih =>
      intro b c
      cases b with
      | nil => simp [ct_or_fold]
      | cons y ys =>
          rw [ct_or_fold]
          simp only [List.length_cons]
          rw [ih]
          omega

/-- C7: `sha_hmac`'s verdict. (a) For 32-byte MACs the returned value is
nonzero iff the received MAC equals the computed HMAC byte-for-byte in all
32 positions — equivalently, iff the accumulated word of the 32 byte
differences is zero (the accumulation is `sha_hmac_result`'s definition).
(b) The compare inspects `min` of the lengths — 32 positions for 32-byte
inputs — with no data-dependent early exit: the count is independent of the
byte values.  (c) In a run, a mismatch between the received MAC and the
computed HMAC makes `sha_hmac` take the error path with compare result 0,
and whenever `sha_hmac` returns normally the received MAC equals the
computed HMAC (and the returned value is the nonzero 32). -/
theorem c7_constant_time_hmac_compare :
    (∀ mac out : List Nat, mac.length = 32 → out.length = 32 →
      (sha_hmac_result mac out ≠ 0 ↔ mac = out)) ∧
    (∀ mac out : List Nat, (ct_or_fold mac out 0).2 = min mac.length out.length) ∧
    (∀ (hmacF : List Nat → List Nat) (d : List Nat) (s : St),
      32 ≤ s.u1.length → (hmacF d).length = 32 →
      (traceBytes s.u1 32 ≠ hmacF d →
        isErr (sha_hmac hmacF d s) = true ∧
        sha_hmac_result (traceBytes s.u1 32) (hmacF d) = 0) ∧
      (∀ (v : Nat) (s' : St), sha_hmac hmacF d s = .ok v s' →
        v = 32 ∧ traceBytes s.u1 32 = hmacF d)) := by
  have hiff : ∀ mac out : List Nat, mac.length = 32 → out.length = 32 →
      (sha_hmac_result mac out ≠ 0 ↔ mac = out) := by
    intro mac out hm ho
    rw [sha_hmac_result]
    by_cases hc : (ct_or_fold mac out 0).1 ≠ 0
    · rw [if_pos hc]
      simp only [ne_eq, not_true_eq_false, false_iff]
      intro heq
      apply hc
      rw [ct_or_fold_fst_eq_zero]
      exact ⟨rfl, (zip_pointwise_eq mac out (by omega)).2 heq⟩
    · rw [if_neg hc]
      push_neg at hc
      simp only [ne_eq, OfNat.ofNat_ne_zero, not_false_eq_true, true_iff]
      rw [ct_or_fold_fst_eq_zero] at hc
      exact (zip_pointwise_eq mac out (by omega)).1 hc.2
  refine ⟨hiff, fun mac out => ct_or_fold_snd mac out 0, ?_⟩
  intro hmacF d s hlen hout
  have htb : (traceBytes s.u1 32).length = 32 := traceBytes_length _ _ hlen
  constructor
  · intro hne
    have hfold : (ct_or_fold (traceBytes s.u1 32) (hmacF d) 0).1 ≠ 0 := by
      intro h0
      rw [ct_or_fold_fst_eq_zero] at h0
      exact hne ((zip_pointwise_eq _ _ (by omega)).1 h0.2)
    constructor
    · cases uart_read_go_total 32 s hlen with
      | inr herr =>
          rw [sha_hmac]
          refine isErr_bind ?_
          rw [uart_read_variable, show min HMAC_SIZE FLASH_PAGESIZE = 32 from by decide]
          exact herr
      | inl hok =>
          rw [sha_hmac]
          refine isErr_bind_ok (show uart_read_variable UART2 HMAC_SIZE s = _ by
            rw [uart_read_variable, show min HMAC_SIZE FLASH_PAGESIZE = 32 from by decide]
            exact hok) ?_
          rw [if_pos hfold]; rfl
    · rw [sha_hmac_result, if_pos hfold]
  · intro v s' hok
    obtain ⟨hv, _, _, hfold⟩ := sha_hmac_ok_inv hmacF d hok
    refine ⟨hv, ?_⟩
    rw [ct_or_fold_fst_eq_zero] at hfold
    exact (zip_pointwise_eq _ _ (by omega)).1 hfold.2

/-- C7 witness: the theorem applied at concrete MACs (two all-zero 32-byte
lists) and at a concrete machine state whose pending MAC bytes are all 1
against a computed all-zero HMAC. -/
theorem c7_constant_time_hmac_compare_witness :
    (sha_hmac_result (List.replicate 32 0) (List.replicate 32 0) ≠ 0 ↔
      (List.replicate 32 0 : List Nat) = List.replicate 32 0) ∧
    ((traceBytes (goodCells 1 32) 32 ≠ hmacF0 [] →
        isErr (sha_hmac hmacF0 [] (zeroSt (goodCells 1 32))) = true ∧
        sha_hmac_result (traceBytes (goodCells 1 32) 32) (hmacF0 []) = 0) ∧
      (∀ (v : Nat) (s' : St), sha_hmac hmacF0 [] (zeroSt (goodCells 1 32)) = .ok v s' →
        v = 32 ∧ traceBytes (goodCells 1 32) 32 = hmacF0 [])) :=
  ⟨c7_constant_time_hmac_compare.1 (List.replicate 32 0) (List.replicate 32 0)
      (by decide) (by decide),
   c7_constant_time_hmac_compare.2.2 hmacF0 [] (zeroSt (goodCells 1 32))
      (by decide) (by decide)⟩

/-! ### C8: `program_flash` word assembly -/

theorem sr8 (x : Nat) : x >>> 8 = x / 256 := by
  rw [Nat.shiftRight_eq_div_pow]

theorem or_mul_two_pow (k a b : Nat) (h : a < 2 ^ k) : a ||| b * 2 ^ k = a + b * 2 ^ k := by
  have h2 := Nat.mul_add_lt_is_or (b := a) (i := k) h b
  rw [Nat.lor_comm, Nat.mul_comm b (2 ^ k)]
  omega

theorem orFF (d : Nat) (h : d < 16777216) : d ||| 0xFF000000 = d + 4278190080 := by
  have h2 := or_mul_two_pow 24 d 255 (by simpa using h)
  norm_num at h2
  exact h2

theorem orB24 (d b : Nat) (h : d < 16777216) : d ||| (b <<< 24) = d + b * 16777216 := by
  rw [Nat.shiftLeft_eq]
  have h2 := or_mul_two_pow 24 d b (by simpa using h)
  norm_num at h2
  exact h2

theorem wordBytes_leWord (b0 b1 b2 b3 : Nat) :
    wordBytes (leWord b0 b1 b2 b3) = [b0 % 256, b1 % 256, b2 % 256, b3 % 256] := by
  simp only [wordBytes, leWord, List.cons.injEq, and_true]
  refine ⟨?_, ?_, ?_, ?_⟩ <;> omega

theorem wordsBytes_nil : wordsBytes [] = [] := rfl

theorem wordsBytes_cons (w : Nat) (ws : List Nat) :
    wordsBytes (w :: ws) = wordBytes w ++ wordsBytes ws := by
  simp [wordsBytes]

theorem wordsBytes_toWords : ∀ (src : List Nat), 4 ∣ src.length →
    wordsBytes (toWords src) = src.map (fun b => b % 256)
  | [], _ => by simp [toWords, wordsBytes]
  | [a], h => by rw [List.length_cons, List.length_nil] at h; omega
  | [a, b], h => by rw [List.length_cons, List.length_cons, List.length_nil] at h; omega
  | [a, b, c], h => by
      rw [List.length_cons, List.length_cons, List.length_cons, List.length_nil] at h; omega
  | a :: b :: c :: d :: rest, h => by
      rw [toWords, wordsBytes_cons, wordBytes_leWord]
      rw [wordsBytes_toWords rest (by simp at h ⊢; omega)]
      simp

theorem wordBytes_tail_word : ∀ (t : List Nat), 1 ≤ t.length → t.length ≤ 3 →
    wordBytes (tail_word t) = t.map (fun b => b % 256) ++ List.replicate (4 - t.length) 0xFF
  | [], h1, _ => by simp at h1
  | [a], _, _ => by
      have ha : a % 256 < 256 := Nat.mod_lt _ (by norm_num)
      have e : tail_word [a] =
          ((((0 : Nat) >>> 8 ||| ((a % 256) <<< 24)) >>> 8 ||| 0xFF000000) >>> 8
            ||| 0xFF000000) >>> 8 ||| 0xFF000000 := rfl
      have v1 : (0 : Nat) >>> 8 ||| ((a % 256) <<< 24) = (a % 256) * 16777216 := by
        rw [Nat.shiftLeft_eq]; norm_num
      have v2 : ((a % 256) * 16777216) >>> 8 = (a % 256) * 65536 := by rw [sr8]; omega
      have v3 := orFF ((a % 256) * 65536) (by omega)
      have v4 : ((a % 256) * 65536 + 4278190080) >>> 8 = (a % 256) * 256 + 16711680 := by
        rw [sr8]; omega
      have v5 := orFF ((a % 256) * 256 + 16711680) (by omega)
      have v6 : ((a % 256) * 256 + 16711680 + 4278190080) >>> 8 = a % 256 + 16776960 := by
        rw [sr8]; omega
      have v7 := orFF (a % 256 + 16776960) (by omega)
      rw [e, v1, v2, v3, v4, v5, v6, v7]
      have hrep : List.map (fun b => b % 256) [a] ++
          List.replicate (4 - [a].length) (0xFF : Nat) = [a % 256, 255, 255, 255] := by
        norm_num [List.replicate]
      rw [hrep]
      simp only [wordBytes, List.cons.injEq, and_true]
      refine ⟨?_, ?_, ?_, ?_⟩ <;> omega
  | [a, b], _, _ => by
      have ha : a % 256 < 256 := Nat.mod_lt _ (by norm_num)
      have hb : b % 256 < 256 := Nat.mod_lt _ (by norm_num)
      have e : tail_word [a, b] =
          ((((0 : Nat) >>> 8 ||| ((a % 256) <<< 24)) >>> 8 ||| ((b % 256) <<< 24)) >>> 8
            ||| 0xFF000000) >>> 8 ||| 0xFF000000 := rfl
      have v1 : (0 : Nat) >>> 8 ||| ((a % 256) <<< 24) = (a % 256) * 16777216 := by
        rw [Nat.shiftLeft_eq]; norm_num
      have v2 : ((a % 256) * 16777216) >>> 8 = (a % 256) * 65536 := by rw [sr8]; omega
      have v3 := orB24 ((a % 256) * 65536) (b % 256) (by omega)
      have v4 : ((a % 256) * 65536 + (b % 256) * 16777216) >>> 8 =
          (a % 256) * 256 + (b % 256) * 65536 := by rw [sr8]; omega
      have v5 := orFF ((a % 256) * 256 + (b % 256) * 65536) (by omega)
      have v6 : ((a % 256) * 256 + (b % 256) * 65536 + 4278190080) >>> 8 =
          a % 256 + (b % 256) * 256 + 16711680 := by rw [sr8]; omega
      have v7 := orFF (a % 256 + (b % 256) * 256 + 16711680) (by omega)
      rw [e, v1, v2, v3, v4, v5, v6, v7]
      have hrep : List.map (fun x => x % 256) [a, b] ++
          List.replicate (4 - [a, b].length) (0xFF : Nat) = [a % 256, b % 256, 255, 255] := by
        norm_num [List.replicate]
      rw [hrep]
      simp only [wordBytes, List.cons.injEq, and_true]
      refine ⟨?_, ?_, ?_, ?_⟩ <;> omega
  | [a, b, c], _, _ => by
      have ha : a % 256 < 256 := Nat.mod_lt _ (by norm_num)
      have hb : b % 256 < 256 := Nat.mod_lt _ (by norm_num)
      have hc : c % 256 < 256 := Nat.mod_lt _ (by norm_num)
      have e : tail_word [a, b, c] =
          ((((0 : Nat) >>> 8 ||| ((a % 256) <<< 24)) >>> 8 ||| ((b % 256) <<< 24)) >>> 8
            ||| ((c % 256) <<< 24)) >>> 8 ||| 0xFF000000 := rfl
      have v1 : (0 : Nat) >>> 8 ||| ((a % 256) <<< 24) = (a % 256) * 16777216 := by
        rw [Nat.shiftLeft_eq]; norm_num
      have v2 : ((a % 256) * 16777216) >>> 8 = (a % 256) * 65536 := by rw [sr8]; omega
      have v3 := orB24 ((a % 256) * 65536) (b % 256) (by omega)
      have v4 : ((a % 256) * 65536 + (b % 256) * 16777216) >>> 8 =
          (a % 256) * 256 + (b % 256) * 65536 := by rw [sr8]; omega
      have v5 := orB24 ((a % 256) * 256 + (b % 256) * 65536) (c % 256) (by omega)
      have v6 : ((a % 256) * 256 + (b % 256) * 65536 + (c % 256) * 16777216) >>> 8 =
          a % 256 + (b % 256) * 256 + (c % 256) * 65536 := by rw [sr8]; omega
      have v7 := orFF (a % 256 + (b % 256) * 256 + (c % 256) * 65536) (by omega)
      rw [e, v1, v2, v3, v4, v5, v6, v7]
      have hrep : List.map (fun x => x % 256) [a, b, c] ++
          List.replicate (4 - [a, b, c].length) (0xFF : Nat) =
          [a % 256, b % 256, c % 256, 255] := by
        norm_num [List.replicate]
      rw [hrep]
      simp only [wordBytes, List.cons.injEq, and_true]
      refine ⟨?_, ?_, ?_, ?_⟩ <;> omega
  | a :: b :: c :: d :: rest, _, h3 => by simp at h3

/-- C8: `program_flash` with `len ≤ FLASH_PAGESIZE`.  (a) When `len` is a
multiple of 4, exactly one `FlashProgram` call programs the little-endian
words of `src` at `page_addr` (their byte image is exactly `src`, byte for
byte).  (b) Otherwise the 4-aligned prefix is programmed at `page_addr`,
and — when that call succeeded — a single final word is programmed at the
next word address `page_addr + 4*(len/4)`; its byte image is the remaining
`len mod 4` bytes of `src` followed by `0xFF` padding in the unused high
bytes.  (c) The return value is nonzero iff some `FlashProgram` call that
was made returned a nonzero status. -/
theorem c8_program_flash (statuses : List Nat) (page_addr : Nat) (src : List Nat)
    (hlen : src.length ≤ FLASH_PAGESIZE) :
    (4 ∣ src.length →
      (program_flash statuses page_addr src).2 =
        [⟨page_addr, toWords src, statuses.getD 0 0⟩] ∧
      wordsBytes (toWords src) = src.map (fun b => b % 256)) ∧
    (¬ 4 ∣ src.length →
      (program_flash statuses page_addr src).2 =
        ⟨page_addr, toWords (src.take (src.length - src.length % 4)), statuses.getD 0 0⟩ ::
          (if statuses.getD 0 0 = 0 then
            [⟨page_addr + (src.length - src.length % 4),
              [tail_word (src.drop (src.length - src.length % 4))], statuses.getD 1 0⟩]
           else []) ∧
      wordsBytes (toWords (src.take (src.length - src.length % 4))) =
        (src.take (src.length - src.length % 4)).map (fun b => b % 256) ∧
      wordBytes (tail_word (src.drop (src.length - src.length % 4))) =
        (src.drop (src.length - src.length % 4)).map (fun b => b % 256) ++
          List.replicate (4 - (src.drop (src.length - src.length % 4)).length) 0xFF ∧
      src.length - src.length % 4 = 4 * (src.length / 4)) ∧
    ((program_flash statuses page_addr src).1 ≠ 0 ↔
      ∃ c ∈ (program_flash statuses page_addr src).2, c.status ≠ 0) := by
  by_cases hdvd : 4 ∣ src.length
  · have hmod : src.length % FLASH_WRITESIZE = 0 := by
      have := Nat.mod_eq_zero_of_dvd hdvd
      simpa [FLASH_WRITESIZE] using this
    have hpf : program_flash statuses page_addr src =
        (statuses.getD 0 0, [⟨page_addr, toWords src, statuses.getD 0 0⟩]) := by
      rw [program_flash]
      rw [if_neg (by simp [hmod])]
    refine ⟨fun _ => ⟨by rw [hpf], wordsBytes_toWords src hdvd⟩,
      fun hcon => absurd hdvd hcon, ?_⟩
    rw [hpf]
    simp [FlashCall.status]
  · have hmod : src.length % FLASH_WRITESIZE ≠ 0 := by
      intro h0
      exact hdvd (by
        have : src.length % 4 = 0 := by simpa [FLASH_WRITESIZE] using h0
        omega)
    have hrem1 : 1 ≤ src.length % 4 := by
      rcases Nat.eq_zero_or_pos (src.length % 4) with h | h
      · exact absurd (by simpa [FLASH_WRITESIZE] using h) hmod
      · omega
    have hrem3 : src.length % 4 ≤ 3 := by omega
    have hlen4 : src.length - src.length % 4 ≤ src.length := by omega
    have hdroplen : (src.drop (src.length - src.length % 4)).length = src.length % 4 := by
      rw [List.length_drop]; omega
    have htakelen : (src.take (src.length - src.length % 4)).length =
        src.length - src.length % 4 := by
      rw [List.length_take]; omega
    have htakedvd : 4 ∣ (src.take (src.length - src.length % 4)).length := by
      rw [htakelen]; omega
    by_cases hs0 : statuses.getD 0 0 ≠ 0
    · have hpf : program_flash statuses page_addr src =
          (statuses.getD 0 0,
            [⟨page_addr, toWords (src.take (src.length - src.length % 4)),
              statuses.getD 0 0⟩]) := by
        rw [program_flash]
        rw [if_pos (by simpa [FLASH_WRITESIZE] using hmod)]
        rw [if_pos hs0]
        rfl
      refine ⟨fun hcon => absurd hcon hdvd, fun _ => ⟨?_, ?_, ?_, by omega⟩, ?_⟩
      · rw [hpf]
        rw [if_neg hs0]
      · exact wordsBytes_toWords _ htakedvd
      · exact wordBytes_tail_word _ (by omega) (by omega)
      · rw [hpf]
        simp [FlashCall.status]
    · push_neg at hs0
      have hpf : program_flash statuses page_addr src =
          (statuses.getD 1 0,
            [⟨page_addr, toWords (src.take (src.length - src.length % 4)),
                statuses.getD 0 0⟩,
             ⟨page_addr + (src.length - src.length % 4),
                [tail_word (src.drop (src.length - src.length % 4))],
                statuses.getD 1 0⟩]) := by
        rw [program_flash]
        rw [if_pos (by simpa [FLASH_WRITESIZE] using hmod)]
        rw [if_neg (by simpa using hs0)]
        rfl
      refine ⟨fun hcon => absurd hcon hdvd, fun _ => ⟨?_, ?_, ?_, by omega⟩, ?_⟩
      · rw [hpf]
        rw [if_pos hs0]
      · exact wordsBytes_toWords _ htakedvd
      · exact wordBytes_tail_word _ (by omega) (by omega)
      · rw [hpf]
        have hs0e : statuses[0]?.getD 0 = 0 := by simpa [List.getD] using hs0
        simp [FlashCall.status, hs0e]

/-- C8 witness: the theorem applied at a 4-byte buffer (aligned case, with a
failing status oracle) and at a 5-byte buffer (padded final word case). -/
theorem c8_program_flash_witness :
    ((program_flash [7] 4096 [1, 2, 3, 4]).2 =
        [⟨4096, toWords [1, 2, 3, 4], 7⟩] ∧
      wordsBytes (toWords [1, 2, 3, 4]) = ([1, 2, 3, 4] : List Nat).map (fun b => b % 256)) ∧
    ((program_flash [7] 4096 [1, 2, 3, 4]).1 ≠ 0 ↔
      ∃ c ∈ (program_flash [7] 4096 [1, 2, 3, 4]).2, c.status ≠ 0) ∧
    wordBytes (tail_word (([1, 2, 3, 4, 5] : List Nat).drop
        (([1, 2, 3, 4, 5] : List Nat).length - ([1, 2, 3, 4, 5] : List Nat).length % 4))) =
      (([1, 2, 3, 4, 5] : List Nat).drop
        (([1, 2, 3, 4, 5] : List Nat).length - ([1, 2, 3, 4, 5] : List Nat).length % 4)).map
          (fun b => b % 256) ++
        List.replicate (4 - (([1, 2, 3, 4, 5] : List Nat).drop
          (([1, 2, 3, 4, 5] : List Nat).length -
            ([1, 2, 3, 4, 5] : List Nat).length % 4)).length) 0xFF :=
  ⟨(c8_program_flash [7] 4096 [1, 2, 3, 4] (by decide)).1 (by decide),
   (c8_program_flash [7] 4096 [1, 2, 3, 4] (by decide)).2.2,
   (((c8_program_flash [] 4096 [1, 2, 3, 4, 5] (by decide)).2.1 (by decide)).2.2).1⟩

/-! ### Inversion of the metadata stage -/

theorem metadata_stage_ok_inv (hmacF : List Nat → List Nat) {s : St}
    {v sz r : Nat} {md : List Nat} {s1 : St}
    (h : metadata_stage hmacF s = .ok (v, sz, r, md) s1) :
    md = traceBytes s.u1 6 ∧ v = parsedVersion s.u1 ∧ sz = parsedSize s.u1 ∧
    r = parsedRmsg s.u1 ∧ sz ≤ FW_MAX_SIZE ∧ r ≤ RELEASE_MAX_SIZE ∧
    ¬(v ≠ 0 ∧ v < old_version_of s.flash) ∧ md.length = 6 ∧
    s1 = { s with u1 := s.u1.drop 38, out1 := s.out1 ++ [OK_BYTE] } ∧
    38 ≤ s.u1.length := by
  rw [metadata_stage] at h
  cases hu : uart_read_variable UART1 FW_METADATA_SIZE s with
  | err s2 => rw [bind_of_err hu] at h; simp at h
  | spin s2 => rw [bind_of_spin hu] at h; simp at h
  | ok mdv s2 =>
      rw [bind_of_ok hu] at h
      obtain ⟨hmd, hs2, hlen6⟩ := uart_read_variable_ok_inv _ _ hu
      have hmin6 : min FW_METADATA_SIZE FLASH_PAGESIZE = 6 := by decide
      rw [hmin6] at hmd hs2 hlen6
      cases hsha : sha_hmac hmacF mdv s2 with
      | err s3 => rw [bind_of_err hsha] at h; simp at h
      | spin s3 => rw [bind_of_spin hsha] at h; simp at h
      | ok a32 s3 =>
          rw [bind_of_ok hsha] at h
          obtain ⟨ha32, hs3, hlen32, hfold⟩ := sha_hmac_ok_inv hmacF mdv hsha
          rw [bind_get_old_version] at h
          by_cases hc1 : le16 (mdv.getD 0 0) (mdv.getD 1 0) ≠ 0 ∧
              le16 (mdv.getD 0 0) (mdv.getD 1 0) < old_version_of s3.flash
          · rw [if_pos hc1] at h; simp [M.fail] at h
          · rw [if_neg hc1] at h
            by_cases hc2 : le16 (mdv.getD 2 0) (mdv.getD 3 0) > FW_MAX_SIZE
            · rw [if_pos hc2] at h; simp [M.fail] at h
            · rw [if_neg hc2] at h
              by_cases hc3 : le16 (mdv.getD 4 0) (mdv.getD 5 0) > RELEASE_MAX_SIZE
              · rw [if_pos hc3] at h; simp [M.fail] at h
              · rw [if_neg hc3] at h
                rw [bind_uart_write1] at h
                simp only [M.pure, Res.ok.injEq, Prod.mk.injEq] at h
                obtain ⟨⟨hv, hsz, hr, hmdeq⟩, hst⟩ := h
                subst hmdeq
                subst hmd
                have hflash3 : s3.flash = s.flash := by rw [hs3, hs2]
                have hlen : 38 ≤ s.u1.length := by
                  rw [hs2] at hlen32; simp at hlen32; omega
                refine ⟨rfl, ?_, ?_, ?_, by omega, by omega, ?_, ?_, ?_, hlen⟩
                · rw [← hv]; rfl
                · rw [← hsz]; rfl
                · rw [← hr]; rfl
                · rw [← hv]
                  rw [hflash3] at hc1
                  exact hc1
                · exact traceBytes_length _ _ (by omega)
                · rw [← hst, hs3, hs2]
                  simp [List.drop_drop]

/-! ### Staging-buffer write bounds (C10 infrastructure) -/

theorem bufBound_of_pres {α : Type} {x : M α} (h : Pres St.bufWrites x) : BufBound x := by
  intro s j hj
  rw [h s] at hj
  exact Or.inl hj

theorem bufBound_bind {α β : Type} {x : M α} {f : α → M β} (P : α → Prop)
    (hx : BufBound x) (hinv : ∀ (s : St) (a : α) (s1 : St), x s = .ok a s1 → P a)
    (hf : ∀ a, P a → BufBound (f a)) : BufBound (M.bind x f) := by
  intro s j hj
  cases h : x s with
  | ok a s1 =>
      rw [bind_of_ok h] at hj
      cases hf a (hinv s a s1 h) s1 j hj with
      | inl hmem =>
          have := hx s j
          rw [h] at this
          exact this hmem
      | inr hlt => exact Or.inr hlt
  | err s1 =>
      rw [bind_of_err h] at hj
      have := hx s j
      rw [h] at this
      exact this hj
  | spin s1 =>
      rw [bind_of_spin h] at hj
      have := hx s j
      rw [h] at this
      exact this hj

theorem bufBound_ite {α : Type} (c : Prop) [Decidable c] {x y : M α}
    (hx : c → BufBound x) (hy : ¬c → BufBound y) : BufBound (if c then x else y) := by
  by_cases h : c
  · rw [if_pos h]; exact hx h
  · rw [if_neg h]; exact hy h

theorem presWrites_uart_read1 : Pres St.bufWrites uart_read1 := by
  intro s; unfold uart_read1; cases s.u1 <;> rfl

theorem presWrites_uart_read_go (n : Nat) : Pres St.bufWrites (uart_read_go n) := by
  induction n with
  | zero => exact pres_pure _ _
  | succ n ih =>
      rw [uart_read_go_succ]
      exact pres_bind presWrites_uart_read1 (fun vb =>
        pres_ite _ (pres_bind ih (fun rest => pres_pure _ _)) (pres_fail _))

theorem presWrites_uart_read_variable (uart n : Nat) :
    Pres St.bufWrites (uart_read_variable uart n) := presWrites_uart_read_go _

theorem presWrites_uart_write1 (b : Nat) : Pres St.bufWrites (uart_write1 b) := by
  intro s; rfl

theorem presWrites_sha_hmac (hmacF : List Nat → List Nat) (d : List Nat) :
    Pres St.bufWrites (sha_hmac hmacF d) := by
  unfold sha_hmac
  refine pres_bind (presWrites_uart_read_variable _ _) (fun mac => ?_)
  exact pres_ite _ (pres_fail _) (pres_pure _ _)

theorem presWrites_metadata_stage (hmacF : List Nat → List Nat) :
    Pres St.bufWrites (metadata_stage hmacF) := by
  refine pres_bind (presWrites_uart_read_variable _ _) (fun md => ?_)
  refine pres_bind (presWrites_sha_hmac _ _) (fun _ => ?_)
  refine pres_bind (fun s => rfl) (fun ov => ?_)
  refine pres_ite _ (pres_fail _) ?_
  refine pres_ite _ (pres_fail _) ?_
  refine pres_ite _ (pres_fail _) ?_
  exact pres_bind (presWrites_uart_write1 _) (fun _ => pres_pure _ _)

theorem bufBound_bufWrite (idx v : Nat) (h : idx < DATA_SIZE) : BufBound (bufWrite idx v) := by
  intro s j hj
  simp only [bufWrite, stOf_ok, List.mem_append, List.mem_singleton] at hj
  cases hj with
  | inl hmem => exact Or.inl hmem
  | inr heq => exact Or.inr (heq ▸ h)

theorem bufBound_buf_write_list (bytes : List Nat) : ∀ (start : Nat),
    start + bytes.length ≤ DATA_SIZE → BufBound (buf_write_list start bytes) := by
  induction bytes with
  | nil => intro start _; exact bufBound_of_pres (pres_pure _ _)
  | cons b rest ih =>
      intro start hle
      refine bufBound_bind (fun _ => True)
        (bufBound_bufWrite _ _ (by simp at hle; omega)) (fun _ _ _ _ => trivial)
        (fun _ _ => ih (start + 1) (by simp at hle; omega))

theorem bufBound_buf_zero : ∀ (n start : Nat),
    start + n ≤ DATA_SIZE → BufBound (buf_zero start n) := by
  intro n
  induction n with
  | zero => intro start _; exact bufBound_of_pres (pres_pure _ _)
  | succ n ih =>
      intro start hle
      refine bufBound_bind (fun _ => True)
        (bufBound_bufWrite _ _ (by omega)) (fun _ _ _ _ => trivial)
        (fun _ _ => ih (start + 1) (by omega))

theorem bufBound_read_frame_bytes (size index : Nat) : ∀ (n i br : Nat),
    FLASH_PAGESIZE * index + i + n ≤ DATA_SIZE →
    BufBound (read_frame_bytes size index n i br) := by
  intro n
  induction n with
  | zero => intro i br _; exact bufBound_of_pres (pres_pure _ _)
  | succ n ih =>
      intro i br hle
      refine bufBound_bind (fun _ => True)
        (bufBound_of_pres presWrites_uart_read1) (fun _ _ _ _ => trivial) (fun vb _ => ?_)
      refine bufBound_bind (fun _ => True)
        (bufBound_bufWrite _ _ (by omega)) (fun _ _ _ _ => trivial) (fun _ _ => ?_)
      refine bufBound_ite _ (fun _ => bufBound_of_pres (pres_fail _)) (fun _ => ?_)
      refine bufBound_ite _ (fun _ => bufBound_of_pres (pres_fail _)) (fun _ => ?_)
      exact ih (i + 1) (br + 1) (by omega)

theorem bufBound_gcm (gcmDecrypt : List Nat → List Nat)
    (gcmOk : List Nat → List Nat → List Nat → Bool) (ct_len : Nat)
    (h : ct_len ≤ DATA_SIZE) :
    BufBound (gcm_decrypt_and_verify gcmDecrypt gcmOk ct_len) := by
  rw [gcm_decrypt_and_verify]
  refine bufBound_bind (fun _ => True)
    (bufBound_of_pres (presWrites_uart_read_variable _ _)) (fun _ _ _ _ => trivial)
    (fun iv _ => ?_)
  refine bufBound_bind (fun _ => True)
    (bufBound_of_pres (presWrites_uart_read_variable _ _)) (fun _ _ _ _ => trivial)
    (fun tag _ => ?_)
  refine bufBound_bind (fun _ => True)
    (bufBound_of_pres (fun s => rfl)) (fun _ _ _ _ => trivial) (fun ct _ => ?_)
  refine bufBound_bind (fun _ => True)
    (bufBound_buf_write_list _ 0 (by
      have := List.length_take_le ct_len (gcmDecrypt ct)
      omega)) (fun _ _ _ _ => trivial) (fun _ _ => ?_)
  exact bufBound_ite _ (fun _ => bufBound_of_pres (pres_fail _))
    (fun _ => bufBound_of_pres (pres_pure _ _))

theorem traceBytes_length_le (u : List (Nat × Bool)) (n : Nat) :
    (traceBytes u n).length ≤ n := by
  simp [traceBytes]

theorem bufBound_frame_step (hmacF : List Nat → List Nat)
    (version size frame_number index_check bytes_recieved : Nat)
    (hfn : FLASH_PAGESIZE * frame_number + FLASH_PAGESIZE + FR_METADATA_SIZE ≤ DATA_SIZE) :
    BufBound (frame_step hmacF version size frame_number index_check bytes_recieved) := by
  rw [frame_step]
  refine bufBound_bind (fun v => v.length ≤ 6)
    (bufBound_of_pres (presWrites_uart_read_variable _ _)) ?_ (fun fr hfr => ?_)
  · intro s a s1 h
    obtain ⟨ha, _, _⟩ := uart_read_variable_ok_inv _ _ h
    rw [ha]
    exact le_trans (traceBytes_length_le _ _) (by decide)
  · refine bufBound_bind (fun _ => True) (bufBound_of_pres (presWrites_sha_hmac _ _))
      (fun _ _ _ _ => trivial) (fun _ _ => ?_)
    refine bufBound_ite _ (fun _ => bufBound_of_pres (pres_fail _)) (fun hc1 => ?_)
    refine bufBound_ite _ (fun _ => bufBound_of_pres (pres_fail _)) (fun hc2 => ?_)
    refine bufBound_ite _ (fun _ => bufBound_of_pres (pres_fail _)) (fun _ => ?_)
    push_neg at hc1 hc2
    refine bufBound_bind (fun _ => True)
      (bufBound_read_frame_bytes _ _ _ _ _ (by
        have h1 := hc1.2
        have h2 := Nat.min_le_right (le16 (fr.getD 2 0) (fr.getD 3 0)) FLASH_PAGESIZE
        have h3 : FLASH_PAGESIZE * le16 (fr.getD 0 0) (fr.getD 1 0) ≤
            FLASH_PAGESIZE * frame_number := Nat.mul_le_mul_left _ h1
        omega))
      (fun _ _ _ _ => trivial) (fun br2 _ => ?_)
    refine bufBound_bind (fun _ => True)
      (bufBound_buf_write_list fr _ (by
        have h1 := hc1.2
        have h2 := hc2
        have h3 : FLASH_PAGESIZE * le16 (fr.getD 0 0) (fr.getD 1 0) ≤
            FLASH_PAGESIZE * frame_number := Nat.mul_le_mul_left _ h1
        have e2 : FR_METADATA_SIZE = 6 := rfl
        omega))
      (fun _ _ _ _ => trivial) (fun _ _ => ?_)
    refine bufBound_bind (fun _ => True) (bufBound_of_pres (fun s => rfl))
      (fun _ _ _ _ => trivial) (fun chunk _ => ?_)
    refine bufBound_bind (fun _ => True) (bufBound_of_pres (presWrites_sha_hmac _ _))
      (fun _ _ _ _ => trivial) (fun _ _ => ?_)
    refine bufBound_bind (fun _ => True) (bufBound_of_pres (presWrites_uart_write1 _))
      (fun _ _ _ _ => trivial) (fun _ _ => ?_)
    exact bufBound_of_pres (pres_pure _ _)

theorem bufBound_frame_loop (hmacF : List Nat → List Nat)
    (version size frame_number : Nat)
    (hfn : FLASH_PAGESIZE * frame_number + FLASH_PAGESIZE + FR_METADATA_SIZE ≤ DATA_SIZE) :
    ∀ (fuel index_check bytes_recieved : Nat),
    BufBound (frame_loop hmacF version size frame_number fuel index_check bytes_recieved) := by
  intro fuel
  induction fuel with
  | zero => intro ic br s j hj; exact Or.inl hj
  | succ fuel ih =>
      intro ic br
      rw [frame_loop_succ]
      refine bufBound_bind (fun _ => True)
        (bufBound_frame_step _ _ _ _ _ _ hfn) (fun _ _ _ _ => trivial) (fun r _ => ?_)
      exact bufBound_ite _ (fun _ => bufBound_of_pres (pres_pure _ _)) (fun _ => ih _ _)

theorem bufBound_post_loop_stage (hmacF gcmDecrypt : List Nat → List Nat)
    (gcmOk : List Nat → List Nat → List Nat → Bool)
    (size r_msg_size : Nat) (md : List Nat)
    (hsz : size ≤ FW_MAX_SIZE) (hmd : md.length ≤ 6) :
    BufBound (post_loop_stage hmacF gcmDecrypt gcmOk size r_msg_size md) := by
  rw [post_loop_stage]
  refine bufBound_bind (fun _ => True) (bufBound_of_pres (fun s => rfl))
    (fun _ _ _ _ => trivial) (fun fw _ => ?_)
  refine bufBound_bind (fun _ => True) (bufBound_of_pres (presWrites_sha_hmac _ _))
    (fun _ _ _ _ => trivial) (fun _ _ => ?_)
  refine bufBound_bind (fun _ => True) (bufBound_of_pres (presWrites_uart_write1 _))
    (fun _ _ _ _ => trivial) (fun _ _ => ?_)
  refine bufBound_bind (fun _ => True)
    (bufBound_of_pres (presWrites_uart_read_variable _ _))
    (fun _ _ _ _ => trivial) (fun msgBytes _ => ?_)
  refine bufBound_bind (fun _ => True) (bufBound_of_pres (fun s => rfl))
    (fun _ _ _ _ => trivial) (fun _ _ => ?_)
  refine bufBound_bind (fun _ => True) (bufBound_of_pres (presWrites_sha_hmac _ _))
    (fun _ _ _ _ => trivial) (fun _ _ => ?_)
  refine bufBound_bind (fun _ => True) (bufBound_of_pres (presWrites_uart_write1 _))
    (fun _ _ _ _ => trivial) (fun _ _ => ?_)
  refine bufBound_bind (fun _ => True)
    (bufBound_buf_write_list md size (by
      have : DATA_SIZE = FW_MAX_SIZE + FW_METADATA_SIZE + RELEASE_MAX_SIZE := rfl
      have e2 : FW_METADATA_SIZE = 6 := rfl
      omega))
    (fun _ _ _ _ => trivial) (fun _ _ => ?_)
  refine bufBound_bind (fun _ => True)
    (bufBound_buf_write_list _ (size + FW_METADATA_SIZE) (by
      have h1 := List.length_take_le RELEASE_MAX_SIZE msgBytes
      have : DATA_SIZE = FW_MAX_SIZE + FW_METADATA_SIZE + RELEASE_MAX_SIZE := rfl
      omega))
    (fun _ _ _ _ => trivial) (fun _ _ => ?_)
  refine bufBound_bind (fun _ => True) (bufBound_of_pres (fun s => rfl))
    (fun _ _ _ _ => trivial) (fun all _ => ?_)
  refine bufBound_bind (fun _ => True) (bufBound_of_pres (presWrites_sha_hmac _ _))
    (fun _ _ _ _ => trivial) (fun _ _ => ?_)
  refine bufBound_bind (fun _ => True)
    (bufBound_buf_zero _ size (by
      have h1 := Nat.min_le_right (FW_METADATA_SIZE + r_msg_size)
        (FW_METADATA_SIZE + RELEASE_MAX_SIZE)
      have : DATA_SIZE = FW_MAX_SIZE + FW_METADATA_SIZE + RELEASE_MAX_SIZE := rfl
      omega))
    (fun _ _ _ _ => trivial) (fun _ _ => ?_)
  refine bufBound_bind (fun _ => True) (bufBound_of_pres (presWrites_uart_write1 _))
    (fun _ _ _ _ => trivial) (fun _ _ => ?_)
  refine bufBound_bind (fun _ => True)
    (bufBound_gcm _ _ _ (by
      have : DATA_SIZE = FW_MAX_SIZE + FW_METADATA_SIZE + RELEASE_MAX_SIZE := rfl
      omega))
    (fun _ _ _ _ => trivial) (fun _ _ => ?_)
  exact bufBound_of_pres (presWrites_uart_write1 _)

theorem bufBound_pre_commit (hmacF gcmDecrypt : List Nat → List Nat)
    (gcmOk : List Nat → List Nat → List Nat → Bool) (fuel : Nat) :
    BufBound (pre_commit hmacF gcmDecrypt gcmOk fuel) := by
  rw [pre_commit]
  refine bufBound_bind
    (fun meta => meta.2.1 ≤ FW_MAX_SIZE ∧ meta.2.2.1 ≤ RELEASE_MAX_SIZE ∧
      meta.2.2.2.length ≤ 6)
    (bufBound_of_pres (presWrites_metadata_stage _)) ?_ (fun meta hmeta => ?_)
  · intro s a s1 h
    obtain ⟨v, sz, r, md⟩ := a
    obtain ⟨_, _, _, _, hsz, hr, _, hmdl, _, _⟩ := metadata_stage_ok_inv hmacF h
    exact ⟨hsz, hr, le_of_eq hmdl⟩
  · obtain ⟨hsz, hr, hmdl⟩ := hmeta
    refine bufBound_bind (fun _ => True)
      (bufBound_frame_loop _ _ _ _ (by
        have hcd : ceil_div meta.2.1 FLASH_PAGESIZE = (meta.2.1 + 1023) / 1024 := rfl
        have hfw : FW_MAX_SIZE = 30720 := rfl
        have hds : DATA_SIZE = 31750 := rfl
        have hpg : FLASH_PAGESIZE = 1024 := rfl
        have hfr : FR_METADATA_SIZE = 6 := rfl
        rw [hcd, hds, hpg, hfr]
        rw [hfw] at hsz
        omega) _ _ _)
      (fun _ _ _ _ => trivial) (fun br _ => ?_)
    refine bufBound_ite _ (fun _ => bufBound_of_pres (pres_fail _)) (fun _ => ?_)
    refine bufBound_bind (fun _ => True)
      (bufBound_post_loop_stage _ _ _ _ _ _ hsz hmdl)
      (fun _ _ _ _ => trivial) (fun _ _ => ?_)
    exact bufBound_of_pres (pres_pure _ _)

/-! ### The commit phase never touches the staging buffer -/

theorem presWrites_flash_erase (page_addr : Nat) : Pres St.bufWrites (flash_erase page_addr) := by
  intro s; rfl

theorem presWrites_flashProgramCall (addr : Nat) (bytes : List Nat) :
    Pres St.bufWrites (flashProgramCall addr bytes) := by
  intro s
  rw [flashProgramCall]
  split <;> rfl

theorem presWrites_program_flash_m (page_addr : Nat) (bytes : List Nat) :
    Pres St.bufWrites (program_flash_m page_addr bytes) := by
  rw [program_flash_m]
  refine pres_bind (presWrites_flash_erase _) (fun _ => ?_)
  refine pres_ite _ ?_ (presWrites_flashProgramCall _ _)
  refine pres_bind (presWrites_flashProgramCall _ _) (fun ret => ?_)
  exact pres_ite _ (pres_pure _ _) (presWrites_flashProgramCall _ _)

theorem presWrites_flash_fw_loop (size : Nat) : ∀ (n off : Nat),
    Pres St.bufWrites (flash_fw_loop size n off) := by
  intro n
  induction n with
  | zero => intro off; exact pres_pure _ _
  | succ n ih =>
      intro off
      rw [flash_fw_loop_succ]
      refine pres_ite _ ?_ (pres_pure _ _)
      refine pres_bind (fun s => rfl) (fun bytes => ?_)
      refine pres_bind (presWrites_program_flash_m _ _) (fun ret => ?_)
      exact pres_ite _ (pres_fail _) (ih _)

theorem presWrites_commit_stage (version size r_msg_size : Nat) (md : List Nat) :
    Pres St.bufWrites (commit_stage version size r_msg_size md) := by
  rw [commit_stage]
  refine pres_bind (presWrites_flash_fw_loop _ _ _) (fun _ => ?_)
  intro s
  refine (pres_bind (presWrites_program_flash_m _ _) (fun r1 => ?_)) s
  refine pres_ite _ (pres_fail _) ?_
  intro s2
  refine (pres_bind (presWrites_program_flash_m _ _) (fun r2 => ?_)) s2
  exact pres_ite _ (pres_fail _) (pres_pure _ _)

theorem bufBound_load_firmware (hmacF gcmDecrypt : List Nat → List Nat)
    (gcmOk : List Nat → List Nat → List Nat → Bool) (fuel : Nat) :
    BufBound (load_firmware hmacF gcmDecrypt gcmOk fuel) := by
  rw [load_firmware]
  refine bufBound_bind (fun _ => True)
    (bufBound_pre_commit _ _ _ _) (fun _ _ _ _ => trivial) (fun meta _ => ?_)
  exact bufBound_of_pres (presWrites_commit_stage _ _ _ _)

/-- C10: in every execution of `load_firmware` whose metadata parses to
`1 ≤ fw_size ≤ FW_MAX_SIZE` and `release_msg_size ≤ RELEASE_MAX_SIZE`, every
staging-buffer index written during the run — frame payload bytes, the six
appended frame-metadata bytes, the firmware metadata copied at `fw_size`,
the release message copied at `fw_size + 6`, the zeroing of the trailing
bytes, and the in-place GCM decryption — is strictly below
`DATA_SIZE = 31750`. -/
theorem c10_staging_buffer_writes_in_bounds (hmacF gcmDecrypt : List Nat → List Nat)
    (gcmOk : List Nat → List Nat → List Nat → Bool) (fuel : Nat) (s : St)
    (hsz1 : 1 ≤ parsedSize s.u1) (hsz2 : parsedSize s.u1 ≤ FW_MAX_SIZE)
    (hr : parsedRmsg s.u1 ≤ RELEASE_MAX_SIZE) :
    ∀ j ∈ (stOf (load_firmware hmacF gcmDecrypt gcmOk fuel s)).bufWrites,
      j ∈ s.bufWrites ∨ j < DATA_SIZE :=
  fun j hj => bufBound_load_firmware hmacF gcmDecrypt gcmOk fuel s j hj

/-- C10 witness: the theorem applied at a concrete state whose metadata
parses to `fw_size = 4`, `release_msg_size = 1`. -/
theorem c10_staging_buffer_writes_in_bounds_witness :
    1 ≤ parsedSize (zeroSt (cellsOf [0, 0, 4, 0, 1, 0])).u1 ∧
    parsedSize (zeroSt (cellsOf [0, 0, 4, 0, 1, 0])).u1 ≤ FW_MAX_SIZE ∧
    parsedRmsg (zeroSt (cellsOf [0, 0, 4, 0, 1, 0])).u1 ≤ RELEASE_MAX_SIZE ∧
    (∀ j ∈ (stOf (load_firmware hmacF0 gcmDecrypt0 gcmOk0 1
        (zeroSt (cellsOf [0, 0, 4, 0, 1, 0])))).bufWrites,
      j ∈ (zeroSt (cellsOf [0, 0, 4, 0, 1, 0])).bufWrites ∨ j < DATA_SIZE) :=
  ⟨by decide, by decide, by decide,
    c10_staging_buffer_writes_in_bounds hmacF0 gcmDecrypt0 gcmOk0 1
      (zeroSt (cellsOf [0, 0, 4, 0, 1, 0])) (by decide) (by decide) (by decide)⟩

/-! ### Release-message tracking through the post-loop stage -/

theorem msg_uart_read1 : Pres St.msg uart_read1 := by
  intro s; unfold uart_read1; cases s.u1 <;> rfl

theorem msg_uart_read_go (n : Nat) : Pres St.msg (uart_read_go n) := by
  induction n with
  | zero => exact pres_pure _ _
  | succ n ih =>
      rw [uart_read_go_succ]
      exact pres_bind msg_uart_read1 (fun vb =>
        pres_ite _ (pres_bind ih (fun rest => pres_pure _ _)) (pres_fail _))

theorem msg_uart_read_variable (uart n : Nat) :
    Pres St.msg (uart_read_variable uart n) := msg_uart_read_go _

theorem msg_uart_write1 (b : Nat) : Pres St.msg (uart_write1 b) := by
  intro s; rfl

theorem msg_bufWrite (idx v : Nat) : Pres St.msg (bufWrite idx v) := by
  intro s; rfl

theorem msg_buf_write_list (bytes : List Nat) : ∀ (start : Nat),
    Pres St.msg (buf_write_list start bytes) := by
  induction bytes with
  | nil => intro start; exact pres_pure _ _
  | cons b rest ih => intro start; exact pres_bind (msg_bufWrite _ _) (fun _ => ih _)

theorem msg_buf_zero : ∀ (n start : Nat), Pres St.msg (buf_zero start n) := by
  intro n
  induction n with
  | zero => intro start; exact pres_pure _ _
  | succ n ih => intro start; exact pres_bind (msg_bufWrite _ _) (fun _ => ih _)

theorem msg_sha_hmac (hmacF : List Nat → List Nat) (d : List Nat) :
    Pres St.msg (sha_hmac hmacF d) := by
  unfold sha_hmac
  refine pres_bind (msg_uart_read_variable _ _) (fun mac => ?_)
  exact pres_ite _ (pres_fail _) (pres_pure _ _)

theorem msg_gcm (gcmDecrypt : List Nat → List Nat)
    (gcmOk : List Nat → List Nat → List Nat → Bool) (n : Nat) :
    Pres St.msg (gcm_decrypt_and_verify gcmDecrypt gcmOk n) := by
  refine pres_bind (msg_uart_read_variable _ _) (fun iv => ?_)
  refine pres_bind (msg_uart_read_variable _ _) (fun tag => ?_)
  refine pres_bind (fun s => rfl) (fun ct => ?_)
  refine pres_bind (msg_buf_write_list _ _) (fun _ => ?_)
  exact pres_ite _ (pres_fail _) (pres_pure _ _)

/-- On success, the post-loop stage leaves `fw_release_message` holding
exactly the `min r_msg_size FLASH_PAGESIZE` bytes it read. -/
theorem post_loop_stage_ok_msg (hmacF gcmDecrypt : List Nat → List Nat)
    (gcmOk : List Nat → List Nat → List Nat → Bool)
    (size r_msg_size : Nat) (md : List Nat) {s s2 : St}
    (h : post_loop_stage hmacF gcmDecrypt gcmOk size r_msg_size md s = .ok () s2) :
    s2.msg.length = min r_msg_size FLASH_PAGESIZE := by
  rw [post_loop_stage] at h
  rw [bind_get_buf] at h
  cases hsha : sha_hmac hmacF (bufRead s.buf 0 size) s with
  | err s3 => rw [bind_of_err hsha] at h; simp at h
  | spin s3 => rw [bind_of_spin hsha] at h; simp at h
  | ok a s3 =>
      rw [bind_of_ok hsha] at h
      rw [bind_uart_write1] at h
      cases hu : uart_read_variable UART2 r_msg_size
          { s3 with out1 := s3.out1 ++ [OK_BYTE] } with
      | err s4 => rw [bind_of_err hu] at h; simp at h
      | spin s4 => rw [bind_of_spin hu] at h; simp at h
      | ok msgBytes s4 =>
          rw [bind_of_ok hu] at h
          obtain ⟨hbytes, _, hlen⟩ := uart_read_variable_ok_inv _ _ hu
          rw [bind_set_msg] at h
          have hrest : Pres St.msg
              (M.bind (sha_hmac hmacF msgBytes) (fun _ =>
               M.bind (uart_write1 OK_BYTE) (fun _ =>
               M.bind (buf_write_list size md) (fun _ =>
               M.bind (buf_write_list (size + FW_METADATA_SIZE)
                  (msgBytes.take RELEASE_MAX_SIZE)) (fun _ =>
               M.bind (get_buf 0 (size + FW_METADATA_SIZE + r_msg_size)) (fun all =>
               M.bind (sha_hmac hmacF all) (fun _ =>
               M.bind (buf_zero size (min (FW_METADATA_SIZE + r_msg_size)
                  (FW_METADATA_SIZE + RELEASE_MAX_SIZE))) (fun _ =>
               M.bind (uart_write1 OK_BYTE) (fun _ =>
               M.bind (gcm_decrypt_and_verify gcmDecrypt gcmOk size) (fun _ =>
               uart_write1 OK_BYTE)))))))))) := by
            refine pres_bind (msg_sha_hmac _ _) (fun _ => ?_)
            refine pres_bind (msg_uart_write1 _) (fun _ => ?_)
            refine pres_bind (msg_buf_write_list _ _) (fun _ => ?_)
            refine pres_bind (msg_buf_write_list _ _) (fun _ => ?_)
            refine pres_bind (fun s => rfl) (fun all => ?_)
            refine pres_bind (msg_sha_hmac _ _) (fun _ => ?_)
            refine pres_bind (msg_buf_zero _ _) (fun _ => ?_)
            refine pres_bind (msg_uart_write1 _) (fun _ => ?_)
            exact pres_bind (msg_gcm _ _ _) (fun _ => msg_uart_write1 _)
          have hmsg2 := hrest { s4 with msg := msgBytes }
          rw [h] at hmsg2
          simp at hmsg2
          rw [hmsg2, hbytes]
          exact traceBytes_length _ _ hlen

/-! ### Inversion of the whole pre-commit phase -/

theorem pre_commit_ok_inv (hmacF gcmDecrypt : List Nat → List Nat)
    (gcmOk : List Nat → List Nat → List Nat → Bool) (fuel : Nat) {s : St}
    {meta : Nat × Nat × Nat × List Nat} {s1 : St}
    (h : pre_commit hmacF gcmDecrypt gcmOk fuel s = .ok meta s1) :
    meta.1 = parsedVersion s.u1 ∧ meta.2.1 = parsedSize s.u1 ∧
    meta.2.2.1 = parsedRmsg s.u1 ∧ meta.2.2.2.length = 6 ∧
    meta.2.1 ≤ FW_MAX_SIZE ∧ meta.2.2.1 ≤ RELEASE_MAX_SIZE ∧
    s1.flash = s.flash ∧ s1.msg.length = meta.2.2.1 := by
  rw [pre_commit] at h
  cases hmeta : metadata_stage hmacF s with
  | err s2 => rw [bind_of_err hmeta] at h; simp at h
  | spin s2 => rw [bind_of_spin hmeta] at h; simp at h
  | ok a s2 =>
      rw [bind_of_ok hmeta] at h
      obtain ⟨v, sz, r, md⟩ := a
      obtain ⟨hmd, hv, hsz, hr, hszle, hrle, _, hmdl, hs2, _⟩ :=
        metadata_stage_ok_inv hmacF hmeta
      cases hfl : frame_loop hmacF v sz (ceil_div sz FLASH_PAGESIZE - 1) fuel 0 0 s2 with
      | err s3 => rw [bind_of_err hfl] at h; simp at h
      | spin s3 => rw [bind_of_spin hfl] at h; simp at h
      | ok br s3 =>
          rw [bind_of_ok hfl] at h
          by_cases hne : sz ≠ br
          · rw [if_pos hne] at h; simp [M.fail] at h
          · rw [if_neg hne] at h
            cases hpost : post_loop_stage hmacF gcmDecrypt gcmOk sz r md s3 with
            | err s4 => rw [bind_of_err hpost] at h; simp at h
            | spin s4 => rw [bind_of_spin hpost] at h; simp at h
            | ok u s4 =>
                rw [bind_of_ok hpost] at h
                simp only [M.pure, Res.ok.injEq] at h
                obtain ⟨hmetaeq, hs1⟩ := h
                subst hmetaeq
                subst hs1
                have hf2 : s2.flash = s.flash := by rw [hs2]
                have hf3 : s3.flash = s2.flash := by
                  have := flash_frame_loop hmacF v sz (ceil_div sz FLASH_PAGESIZE - 1)
                    fuel 0 0 s2
                  rw [hfl] at this
                  simpa using this
                have hf4 : s4.flash = s3.flash := by
                  have := flash_post_loop_stage hmacF gcmDecrypt gcmOk sz r md s3
                  rw [hpost] at this
                  simpa using this
                obtain ⟨rfl⟩ : u = () := rfl
                have hmsg : s4.msg.length = min r FLASH_PAGESIZE :=
                  post_loop_stage_ok_msg hmacF gcmDecrypt gcmOk sz r md hpost
                refine ⟨hv, hsz, hr, hmdl, hszle, hrle, by rw [hf4, hf3, hf2], ?_⟩
                rw [hmsg]
                have : RELEASE_MAX_SIZE ≤ FLASH_PAGESIZE := by decide
                simp only []
                omega

/-! ### Byte-level effect of the commit-phase flash operations -/

theorem bind_flash_erase {β : Type} (page_addr : Nat) (f : Unit → M β) (s : St) :
    M.bind (flash_erase page_addr) f s =
      f () { s with flash := fun a =>
        if page_addr ≤ a ∧ a < page_addr + FLASH_PAGESIZE then 0xFF else s.flash a } := rfl

theorem flashProgramCall_inv (addr : Nat) (bytes : List Nat) {s : St} {r : Nat} {s' : St}
    (h : flashProgramCall addr bytes s = .ok r s') :
    s'.buf = s.buf ∧ s'.msg = s.msg ∧ s'.u1 = s.u1 ∧
    ((r = 0 ∧ (∀ a, (a < addr ∨ addr + bytes.length ≤ a) → s'.flash a = s.flash a) ∧
       (∀ j, j < bytes.length → s'.flash (addr + j) = bytes.getD j 0 % 256)) ∨
     (r ≠ 0 ∧ s'.flash = s.flash)) := by
  rw [flashProgramCall] at h
  by_cases hst : s.statuses.getD 0 0 = 0
  · rw [if_pos hst] at h
    simp only [Res.ok.injEq] at h
    obtain ⟨hr, hs⟩ := h
    subst hs
    refine ⟨rfl, rfl, rfl, Or.inl ⟨hr.symm, ?_, ?_⟩⟩
    · intro a ha
      simp only []
      rw [if_neg (by omega)]
    · intro j hj
      simp only []
      rw [if_pos (by omega)]
      congr 2
      omega
  · rw [if_neg hst] at h
    simp only [Res.ok.injEq] at h
    obtain ⟨hr, hs⟩ := h
    subst hs
    exact ⟨rfl, rfl, rfl, Or.inr ⟨by rw [← hr]; exact hst, rfl⟩⟩

theorem program_flash_m_ok (page_addr : Nat) (bytes : List Nat)
    (hlen : bytes.length ≤ FLASH_PAGESIZE) {s : St} {r : Nat} {s' : St}
    (h : program_flash_m page_addr bytes s = .ok r s') (hr : r = 0) :
    s'.buf = s.buf ∧ s'.msg = s.msg ∧ s'.u1 = s.u1 ∧
    (∀ a, (a < page_addr ∨ page_addr + FLASH_PAGESIZE ≤ a) → s'.flash a = s.flash a) ∧
    (∀ j, j < bytes.length → s'.flash (page_addr + j) = bytes.getD j 0 % 256) := by
  subst hr
  rw [program_flash_m, bind_flash_erase] at h
  set sE : St := { s with flash := fun a =>
    if page_addr ≤ a ∧ a < page_addr + FLASH_PAGESIZE then 0xFF else s.flash a } with hsE
  by_cases hmod : bytes.length % FLASH_WRITESIZE ≠ 0
  · rw [if_pos hmod] at h
    have hlenle : bytes.length ≤ 1023 := by
      have h1 : FLASH_WRITESIZE = 4 := rfl
      have h2 : FLASH_PAGESIZE = 1024 := rfl
      rw [h1] at hmod
      rw [h2] at hlen
      omega
    cases hc1 : flashProgramCall page_addr
        (bytes.take (bytes.length - bytes.length % FLASH_WRITESIZE)) sE with
    | err sx => rw [bind_of_err hc1] at h; simp at h
    | spin sx => rw [bind_of_spin hc1] at h; simp at h
    | ok ret1 sP1 =>
        rw [bind_of_ok hc1] at h
        obtain ⟨hb1, hm1, hu1, hcase1⟩ := flashProgramCall_inv _ _ hc1
        by_cases hret1 : ret1 ≠ 0
        · rw [if_pos hret1] at h
          simp only [M.pure, Res.ok.injEq] at h
          exact absurd h.1 hret1
        · rw [if_neg hret1] at h
          push_neg at hret1
          rcases hcase1 with ⟨_, hout1, hin1⟩ | ⟨hne, _⟩
          · cases hc2 : flashProgramCall
                (page_addr + (bytes.length - bytes.length % FLASH_WRITESIZE))
                (bytes.drop (bytes.length - bytes.length % FLASH_WRITESIZE) ++
                  List.replicate (FLASH_WRITESIZE - bytes.length % FLASH_WRITESIZE) 0xFF)
                sP1 with
            | err sx => rw [hc2] at h; simp at h
            | spin sx => rw [hc2] at h; simp at h
            | ok ret2 sP2 =>
                rw [hc2] at h
                simp only [Res.ok.injEq] at h
                obtain ⟨hret2, hs'⟩ := h
                subst hs'
                obtain ⟨hb2, hm2, hu2, hcase2⟩ := flashProgramCall_inv _ _ hc2
                rcases hcase2 with ⟨_, hout2, hin2⟩ | ⟨hne2, _⟩
                · have htl : (bytes.take (bytes.length - bytes.length %
                      FLASH_WRITESIZE)).length = bytes.length - bytes.length %
                      FLASH_WRITESIZE := by
                    rw [List.length_take]; omega
                  have hdl : (bytes.drop (bytes.length - bytes.length %
                      FLASH_WRITESIZE) ++ List.replicate (FLASH_WRITESIZE -
                      bytes.length % FLASH_WRITESIZE) 0xFF).length =
                      FLASH_WRITESIZE := by
                    rw [List.length_append, List.length_drop, List.length_replicate]
                    have h1 : FLASH_WRITESIZE = 4 := rfl
                    rw [h1]
                    have := Nat.mod_lt bytes.length (show 0 < 4 by decide)
                    omega
                  have hws : FLASH_WRITESIZE = 4 := rfl
                  have hfull4 : bytes.length - bytes.length % FLASH_WRITESIZE + 4 ≤
                      FLASH_PAGESIZE := by
                    have h2 : FLASH_PAGESIZE = 1024 := rfl
                    rw [hws, h2]
                    omega
                  refine ⟨by rw [hb2, hb1], by rw [hm2, hm1], by rw [hu2, hu1],
                    ?_, ?_⟩
                  · intro a ha
                    rw [hout2 a (by rw [hdl]; omega), hout1 a (by rw [htl]; omega)]
                    rw [hsE]
                    simp only []
                    rw [if_neg (by omega)]
                  · intro j hj
                    by_cases hjf : j < bytes.length - bytes.length % FLASH_WRITESIZE
                    · rw [hout2 (page_addr + j) (by rw [hdl]; omega)]
                      rw [hin1 j (by rw [htl]; omega)]
                      rw [List.getD_eq_getElem?_getD,
                        List.getElem?_take_of_lt hjf, ← List.getD_eq_getElem?_getD]
                    · have hge : bytes.length - bytes.length % FLASH_WRITESIZE ≤ j := by
                        omega
                      have hjj : page_addr + j = page_addr +
                          (bytes.length - bytes.length % FLASH_WRITESIZE) +
                          (j - (bytes.length - bytes.length % FLASH_WRITESIZE)) := by
                        omega
                      rw [hjj, hin2 _ (by
                        rw [hdl, hws]
                        omega)]
                      rw [List.getD_eq_getElem?_getD, List.getElem?_append_left (by
                        rw [List.length_drop]
                        omega)]
                      rw [List.getElem?_drop, ← List.getD_eq_getElem?_getD]
                      congr 2
                      omega
                · exact absurd hret2 hne2
          · exact absurd hret1 hne
  · rw [if_neg hmod] at h
    cases hc1 : flashProgramCall page_addr bytes sE with
    | err sx => rw [hc1] at h; simp at h
    | spin sx => rw [hc1] at h; simp at h
    | ok ret1 sP1 =>
        rw [hc1] at h
        simp only [Res.ok.injEq] at h
        obtain ⟨hret1, hs'⟩ := h
        subst hs'
        obtain ⟨hb1, hm1, hu1, hcase1⟩ := flashProgramCall_inv _ _ hc1
        rcases hcase1 with ⟨_, hout1, hin1⟩ | ⟨hne, _⟩
        · refine ⟨hb1, hm1, hu1, ?_, hin1⟩
          intro a ha
          rw [hout1 a (by omega)]
          rw [hsE]
          simp only []
          rw [if_neg (by omega)]
        · exact absurd hret1 hne

theorem bufRead_getD (buf : Nat → Nat) (start len j : Nat) (h : j < len) :
    (bufRead buf start len).getD j 0 = buf (start + j) := by
  rw [bufRead, List.getD_eq_getElem?_getD, List.getElem?_map, List.getElem?_range h]
  rfl

theorem bufRead_length (buf : Nat → Nat) (start len : Nat) :
    (bufRead buf start len).length = len := by
  simp [bufRead]

/-- Correctness of the firmware flash loop: on success it programs exactly
the staged bytes page by page, touches nothing below `FW_BASE + off`, and
leaves the staging buffer and release message alone. -/
theorem flash_fw_loop_ok (size : Nat) : ∀ (n off : Nat) {s : St} {s' : St},
    flash_fw_loop size n off s = .ok () s' →
    size ≤ off + FLASH_PAGESIZE * n →
    (∀ a, a < FW_BASE + off → s'.flash a = s.flash a) ∧
    (∀ i, off ≤ i → i < size → s'.flash (FW_BASE + i) = s.buf i % 256) ∧
    s'.buf = s.buf ∧ s'.msg = s.msg := by
  intro n
  induction n with
  | zero =>
      intro off s s' h hcov
      have hs : s' = s := by
        rw [flash_fw_loop_zero] at h
        simpa [M.pure, eq_comm] using h
      subst hs
      refine ⟨fun a _ => rfl, fun i hi1 hi2 => ?_, rfl, rfl⟩
      exfalso
      simp at hcov
      omega
  | succ n ih =>
      intro off s s' h hcov
      rw [flash_fw_loop_succ] at h
      by_cases hlt : off < size
      · rw [if_pos hlt] at h
        rw [bind_get_buf] at h
        cases hp : program_flash_m (FW_BASE + off)
            (bufRead s.buf off (min FLASH_PAGESIZE (size - off))) s with
        | err sx => rw [bind_of_err hp] at h; simp at h
        | spin sx => rw [bind_of_spin hp] at h; simp at h
        | ok ret sP =>
            rw [bind_of_ok hp] at h
            by_cases hret : ret ≠ 0
            · rw [if_pos hret] at h; simp [M.fail] at h
            · rw [if_neg hret] at h
              push_neg at hret
              obtain ⟨hbP, hmP, _, houtP, hinP⟩ := program_flash_m_ok _ _
                (by rw [bufRead_length]; omega) hp hret
              have hmul : FLASH_PAGESIZE * (n + 1) = FLASH_PAGESIZE * n + FLASH_PAGESIZE := by
                ring
              obtain ⟨hout', hin', hbuf', hmsg'⟩ := ih (off + FLASH_PAGESIZE) h
                (by omega)
              refine ⟨?_, ?_, by rw [hbuf', hbP], by rw [hmsg', hmP]⟩
              · intro a ha
                rw [hout' a (by omega), houtP a (by omega)]
              · intro i hi1 hi2
                by_cases hcase : i < off + FLASH_PAGESIZE
                · rw [hout' (FW_BASE + i) (by omega)]
                  have hj : i - off < (bufRead s.buf off
                      (min FLASH_PAGESIZE (size - off))).length := by
                    rw [bufRead_length]; omega
                  have := hinP (i - off) (by rw [bufRead_length] at hj ⊢; omega)
                  rw [show FW_BASE + off + (i - off) = FW_BASE + i by omega] at this
                  rw [this, bufRead_getD _ _ _ _ (by omega)]
                  congr 2
                  omega
                · rw [hin' i (by omega) hi2, hbP]
      · rw [if_neg hlt] at h
        have hs : s' = s := by simpa [M.pure, eq_comm] using h
        subst hs
        exact ⟨fun a _ => rfl, fun i hi1 hi2 => by omega, rfl, rfl⟩

/-- Byte-level effect of the commit stage on success: the firmware region
holds the staged bytes, the metadata page holds `md` — with the stored
version bytes substituted when `version = 0` — and the release-message page
holds the uploaded message; the staging buffer and message list are
untouched. -/
theorem commit_stage_ok_inv (version size r_msg_size : Nat) (md : List Nat)
    (hsz : size ≤ FW_MAX_SIZE) (hmd : md.length = 6) (hr : r_msg_size ≤ RELEASE_MAX_SIZE)
    {s : St} {s' : St}
    (h : commit_stage version size r_msg_size md s = .ok () s') :
    s'.buf = s.buf ∧ s'.msg = s.msg ∧
    (∀ i, i < size → s'.flash (FW_BASE + i) = s.buf i % 256) ∧
    (∀ k, k < 6 → s'.flash (METADATA_BASE + k) =
      (if version = 0
        then s.flash METADATA_BASE % 256 :: s.flash (METADATA_BASE + 1) % 256 :: md.drop 2
        else md).getD k 0 % 256) ∧
    (∀ i, i < min r_msg_size s.msg.length →
      s'.flash (RELEASE_BASE + i) = s.msg.getD i 0 % 256) := by
  rw [commit_stage] at h
  cases hfw : flash_fw_loop size size 0 s with
  | err sx => rw [bind_of_err hfw] at h; simp at h
  | spin sx => rw [bind_of_spin hfw] at h; simp at h
  | ok u sF =>
      obtain ⟨rfl⟩ : u = () := rfl
      rw [bind_of_ok hfw] at h
      obtain ⟨houtF, hinF, hbF, hmF⟩ := flash_fw_loop_ok size size 0 hfw
        (by
          have hle : size ≤ FLASH_PAGESIZE * size := by
            calc size = 1 * size := by omega
            _ ≤ FLASH_PAGESIZE * size := Nat.mul_le_mul_right _ (by decide)
          omega)
      set mdv : List Nat := if version = 0
        then sF.flash METADATA_BASE % 256 :: sF.flash (METADATA_BASE + 1) % 256 :: md.drop 2
        else md with hmdv
      have hmdvlen : mdv.length = 6 := by
        rw [hmdv]
        by_cases hv : version = 0
        · rw [if_pos hv]
          simp [List.length_drop, hmd]
        · rw [if_neg hv]; exact hmd
      simp only [] at h
      cases hpm : program_flash_m METADATA_BASE mdv sF with
      | err sx => rw [bind_of_err hpm] at h; simp at h
      | spin sx => rw [bind_of_spin hpm] at h; simp at h
      | ok r1 sM =>
          rw [bind_of_ok hpm] at h
          by_cases hr1 : r1 ≠ 0
          · rw [if_pos hr1] at h; simp [M.fail] at h
          · rw [if_neg hr1] at h
            push_neg at hr1
            obtain ⟨hbM, hmM, _, houtM, hinM⟩ := program_flash_m_ok _ _
              (by rw [hmdvlen]; decide) hpm hr1
            cases hpr : program_flash_m RELEASE_BASE (sM.msg.take r_msg_size) sM with
            | err sx => rw [bind_of_err hpr] at h; simp at h
            | spin sx => rw [bind_of_spin hpr] at h; simp at h
            | ok r2 sR =>
                rw [bind_of_ok hpr] at h
                by_cases hr2 : r2 ≠ 0
                · rw [if_pos hr2] at h; simp [M.fail] at h
                · rw [if_neg hr2] at h
                  push_neg at hr2
                  have hs' : sR = s' := by simpa [M.pure, eq_comm] using h
                  subst hs'
                  obtain ⟨hbR, hmR, _, houtR, hinR⟩ := program_flash_m_ok _ _
                    (by
                      have h1 := List.length_take_le r_msg_size sM.msg
                      have h2 : RELEASE_MAX_SIZE ≤ FLASH_PAGESIZE := by decide
                      omega) hpr hr2
                  have hRM : RELEASE_BASE + FLASH_PAGESIZE = METADATA_BASE := rfl
                  have hMF : METADATA_BASE + FLASH_PAGESIZE = FW_BASE := rfl
                  refine ⟨by rw [hbR, hbM, hbF], by rw [hmR, hmM, hmF], ?_, ?_, ?_⟩
                  · intro i hi
                    rw [houtR (FW_BASE + i) (by
                        right
                        have : RELEASE_BASE + FLASH_PAGESIZE ≤ FW_BASE := by decide
                        omega),
                      houtM (FW_BASE + i) (by
                        right
                        have : METADATA_BASE + FLASH_PAGESIZE ≤ FW_BASE := by decide
                        omega)]
                    exact hinF i (by omega) hi
                  · intro k hk
                    rw [houtR (METADATA_BASE + k) (by
                        right
                        have : RELEASE_BASE + FLASH_PAGESIZE ≤ METADATA_BASE := by decide
                        omega)]
                    have := hinM k (by omega)
                    rw [this]
                    rw [hmdv]
                    have hFM : sF.flash METADATA_BASE = s.flash METADATA_BASE := by
                      refine houtF METADATA_BASE (by decide)
                    have hFM1 : sF.flash (METADATA_BASE + 1) = s.flash (METADATA_BASE + 1) := by
                      refine houtF (METADATA_BASE + 1) (by decide)
                    rw [hFM, hFM1]
                  · intro i hi
                    have := hinR i (by
                      rw [List.length_take, hmM, hmF]
                      omega)
                    rw [this]
                    rw [List.getD_eq_getElem?_getD, List.getElem?_take_of_lt (by omega),
                      ← List.getD_eq_getElem?_getD]
                    rw [hmM, hmF]

/-- C4: in every accepted update whose firmware metadata carries
`version = 0`, the version field (the first two bytes) of the metadata
programmed at `METADATA_BASE` at commit equals the stored version read from
flash before the update — the persisted rollback floor does not change —
while the firmware region still receives the staged (decrypted) bytes and
the release-message page still receives the uploaded message. -/
theorem c4_debug_upload_preserves_stored_version (hmacF gcmDecrypt : List Nat → List Nat)
    (gcmOk : List Nat → List Nat → List Nat → Bool) (fuel : Nat) (s s' : St)
    (hrun : load_firmware hmacF gcmDecrypt gcmOk fuel s = Res.ok () s')
    (hv : parsedVersion s.u1 = 0)
    (hfb : ∀ a, s.flash a < 256) :
    s'.flash METADATA_BASE = s.flash METADATA_BASE ∧
    s'.flash (METADATA_BASE + 1) = s.flash (METADATA_BASE + 1) ∧
    old_version_of s'.flash = old_version_of s.flash ∧
    (∀ i, i < parsedSize s.u1 → s'.flash (FW_BASE + i) = s'.buf i % 256) ∧
    (∀ i, i < parsedRmsg s.u1 → s'.flash (RELEASE_BASE + i) = s'.msg.getD i 0 % 256) := by
  rw [load_firmware] at hrun
  cases hpre : pre_commit hmacF gcmDecrypt gcmOk fuel s with
  | err sx => rw [bind_of_err hpre] at hrun; simp at hrun
  | spin sx => rw [bind_of_spin hpre] at hrun; simp at hrun
  | ok meta s1 =>
      rw [bind_of_ok hpre] at hrun
      obtain ⟨hv1, hsz1, hr1, hmdl, hszle, hrle, hflash1, hmsglen⟩ :=
        pre_commit_ok_inv _ _ _ _ hpre
      obtain ⟨hbC, hmC, hfwC, hmdC, hrelC⟩ :=
        commit_stage_ok_inv meta.1 meta.2.1 meta.2.2.1 meta.2.2.2 hszle hmdl hrle hrun
      have hv0 : meta.1 = 0 := by rw [hv1, hv]
      have hb0 : s'.flash METADATA_BASE = s.flash METADATA_BASE := by
        have hk := hmdC 0 (by omega)
        rw [if_pos hv0, hflash1] at hk
        simp only [List.getD_cons_zero, Nat.add_zero] at hk
        have := hfb METADATA_BASE
        omega
      have hb1 : s'.flash (METADATA_BASE + 1) = s.flash (METADATA_BASE + 1) := by
        have hk := hmdC 1 (by omega)
        rw [if_pos hv0, hflash1] at hk
        simp only [List.getD_cons_succ, List.getD_cons_zero] at hk
        have := hfb (METADATA_BASE + 1)
        omega
      refine ⟨hb0, hb1, ?_, ?_, ?_⟩
      · rw [old_version_of, old_version_of, hb0, hb1]
      · intro i hi
        rw [hbC]
        exact hfwC i (by omega)
      · intro i hi
        rw [hmC]
        exact hrelC i (by omega)

/-- On a successful unit-valued run, the result is `ok` at its own final
state. -/
theorem res_eq_ok_of_isOk {x : Res Unit} (h : isOk x = true) : x = Res.ok () (stOf x) := by
  cases x with
  | ok a s => cases a; rfl
  | err s => simp [isOk] at h
  | spin s => simp [isOk] at h

/-- C4 witness: the theorem applied to a concrete successful debug upload
(`version = 0`, `fw_size = 2`, one frame). -/
theorem c4_debug_upload_preserves_stored_version_witness :
    load_firmware hmacF0 gcmDecrypt0 gcmOk0 1 c4st = Res.ok () c4endSt ∧
    parsedVersion c4st.u1 = 0 ∧
    (c4endSt.flash METADATA_BASE = c4st.flash METADATA_BASE ∧
     c4endSt.flash (METADATA_BASE + 1) = c4st.flash (METADATA_BASE + 1) ∧
     old_version_of c4endSt.flash = old_version_of c4st.flash ∧
     (∀ i, i < parsedSize c4st.u1 → c4endSt.flash (FW_BASE + i) = c4endSt.buf i % 256) ∧
     (∀ i, i < parsedRmsg c4st.u1 →
        c4endSt.flash (RELEASE_BASE + i) = c4endSt.msg.getD i 0 % 256)) :=
  ⟨res_eq_ok_of_isOk (by decide), by decide,
    c4_debug_upload_preserves_stored_version hmacF0 gcmDecrypt0 gcmOk0 1 c4st c4endSt
      (res_eq_ok_of_isOk (by decide)) (by decide)
      (fun _ => by show (0 : Nat) < 256; decide)⟩

/-- C9 counterexample: an update whose firmware metadata carries
`fw_size = 0` — against the claim — does reach the flash-commit phase: on
this concrete input (a single zero-length frame, all authenticators
matching) `load_firmware` completes and programs both the metadata page and
the release-message page.  The `frame_number` computation
`ceil(0/1024) - 1` saturates (soft-float negative-to-unsigned conversion),
so frame 0 is the last expected frame and every check passes. -/
theorem c9_zero_size_reaches_commit_counterexample :
    parsedSize c9st.u1 = 0 ∧
    load_firmware hmacF0 gcmDecrypt0 gcmOk0 1 c9st = Res.ok () c9endSt ∧
    c9st.flash METADATA_BASE = 0 ∧ c9endSt.flash METADATA_BASE = 5 ∧
    c9st.flash RELEASE_BASE = 0 ∧ c9endSt.flash RELEASE_BASE = 65 :=
  ⟨by decide, res_eq_ok_of_isOk (by decide), by decide, by decide, by decide, by decide⟩

/-- C9 (amended): an update whose firmware metadata carries `fw_size = 0`
can reach the flash-commit phase (metadata and release-message pages are
programmed), but no firmware byte is ever written: every completed run with
parsed `fw_size = 0` leaves the firmware region at `FW_BASE` and everything
above it bit-identical to its pre-update state. -/
theorem c9_zero_size_never_writes_firmware_region
    (hmacF gcmDecrypt : List Nat → List Nat)
    (gcmOk : List Nat → List Nat → List Nat → Bool) (fuel : Nat) (s s' : St)
    (hrun : load_firmware hmacF gcmDecrypt gcmOk fuel s = Res.ok () s')
    (hsz : parsedSize s.u1 = 0) :
    ∀ a, FW_BASE ≤ a → s'.flash a = s.flash a := by
  rw [load_firmware] at hrun
  cases hpre : pre_commit hmacF gcmDecrypt gcmOk fuel s with
  | err sx => rw [bind_of_err hpre] at hrun; simp at hrun
  | spin sx => rw [bind_of_spin hpre] at hrun; simp at hrun
  | ok meta s1 =>
      rw [bind_of_ok hpre] at hrun
      obtain ⟨hv1, hsz1, hr1, hmdl, hszle, hrle, hflash1, hmsglen⟩ :=
        pre_commit_ok_inv _ _ _ _ hpre
      have hsz0 : meta.2.1 = 0 := by rw [hsz1, hsz]
      rw [commit_stage, hsz0] at hrun
      rw [bind_of_ok (show flash_fw_loop 0 0 0 s1 = Res.ok () s1 from rfl)] at hrun
      simp only [] at hrun
      set mdv : List Nat := if meta.1 = 0
        then s1.flash METADATA_BASE % 256 :: s1.flash (METADATA_BASE + 1) % 256 ::
          meta.2.2.2.drop 2
        else meta.2.2.2 with hmdv
      have hmdvlen : mdv.length = 6 := by
        rw [hmdv]
        by_cases hv : meta.1 = 0
        · rw [if_pos hv]
          simp [List.length_drop, hmdl]
        · rw [if_neg hv]; exact hmdl
      cases hpm : program_flash_m METADATA_BASE mdv s1 with
      | err sx => rw [bind_of_err hpm] at hrun; simp at hrun
      | spin sx => rw [bind_of_spin hpm] at hrun; simp at hrun
      | ok r1 sM =>
          rw [bind_of_ok hpm] at hrun
          by_cases hr1 : r1 ≠ 0
          · rw [if_pos hr1] at hrun; simp [M.fail] at hrun
          · rw [if_neg hr1] at hrun
            push_neg at hr1
            obtain ⟨_, _, _, houtM, _⟩ := program_flash_m_ok _ _
              (by rw [hmdvlen]; decide) hpm hr1
            cases hpr : program_flash_m RELEASE_BASE (sM.msg.take meta.2.2.1) sM with
            | err sx => rw [bind_of_err hpr] at hrun; simp at hrun
            | spin sx => rw [bind_of_spin hpr] at hrun; simp at hrun
            | ok r2 sR =>
                rw [bind_of_ok hpr] at hrun
                by_cases hr2 : r2 ≠ 0
                · rw [if_pos hr2] at hrun; simp [M.fail] at hrun
                · rw [if_neg hr2] at hrun
                  push_neg at hr2
                  have hs' : sR = s' := by simpa [M.pure, eq_comm] using hrun
                  subst hs'
                  obtain ⟨_, _, _, houtR, _⟩ := program_flash_m_ok _ _
                    (by
                      have h1 := List.length_take_le meta.2.2.1 sM.msg
                      have h2 : RELEASE_MAX_SIZE ≤ FLASH_PAGESIZE := by decide
                      omega) hpr hr2
                  intro a ha
                  rw [houtR a (by
                      right
                      have : RELEASE_BASE + FLASH_PAGESIZE ≤ FW_BASE := by decide
                      omega),
                    houtM a (by
                      right
                      have : METADATA_BASE + FLASH_PAGESIZE = FW_BASE := by decide
                      omega)]
                  rw [hflash1]

/-- C9 (amended) witness: the amended theorem applied to the concrete
`fw_size = 0` upload. -/
theorem c9_zero_size_never_writes_firmware_region_witness :
    load_firmware hmacF0 gcmDecrypt0 gcmOk0 1 c9st = Res.ok () c9endSt ∧
    parsedSize c9st.u1 = 0 ∧
    (∀ a, FW_BASE ≤ a → c9endSt.flash a = c9st.flash a) :=
  ⟨res_eq_ok_of_isOk (by decide), by decide,
    c9_zero_size_never_writes_firmware_region hmacF0 gcmDecrypt0 gcmOk0 1 c9st c9endSt
      (res_eq_ok_of_isOk (by decide)) (by decide)⟩

end Boot
